import Mathlib

/-! ## zipcompare: a shallow embedding of `main.go` and its verified properties

Go strings and byte slices are modelled as lists of bytes (`List Nat`, every
element below 256 for a real string).  `len` is `List.length`, slicing is
`List.take` / `List.drop`.

The Go `map[string]FileInfo` is modelled as an association list with distinct
keys; the order in which `range` visits a map is left open by the language and
is a parameter (`RangeOrder`) of the functions that iterate.
-/

namespace ZipCompare

/-- A Go `string` (or `[]byte`): a finite sequence of bytes. -/
abbrev GoString := List Nat

/-- The bytes of a string literal of the source (UTF-8, as the Go compiler stores it). -/
def str (s : String) : GoString := s.toUTF8.data.toList.map UInt8.toNat

/-! ## Regular expressions (package `regexp`, leftmost-first semantics)

Only the operators that occur in the pattern of `extractBaseName` are modelled.
Matching is the backtracking search whose first success is, by the contract of
package `regexp`, the match that `FindStringSubmatch` reports: a greedy
repetition tries the longest run first, an optional group tries to take part
before it tries to be skipped.  All character classes of the pattern contain or
exclude ASCII characters only, so matching byte by byte and matching rune by
rune agree. -/

/-- Regular expressions: one character of a class, a greedy repetition
`c{min,}` of a class, concatenation, a greedy optional `r?`, a capture group
and the end-of-text anchor `$`. -/
inductive Regex where
  | cls (p : Nat → Bool)
  | rep (p : Nat → Bool) (min : Nat)
  | seq (a b : Regex)
  | opt (a : Regex)
  | group (i : Nat) (a : Regex)
  | eot

/-- The text captured by each group; a group that took no part holds `""`. -/
abbrev Caps := Nat → GoString

/-- Greedy `c{min,}`: consume one more character of the class when possible,
and only when the rest of the pattern fails that way stop here (allowed once
`min` characters have been consumed). -/
def repGreedy {α : Type} (p : Nat → Bool) : Nat → GoString → (GoString → Option α) → Option α
  | min, [], k => if min = 0 then k [] else none
  | min, x :: t, k =>
    match (if p x then repGreedy p (min - 1) t k else none) with
    | some r => some r
    | none => if min = 0 then k (x :: t) else none

/-- Backtracking matcher: `re.run s c k` matches `re` at the front of `s` with
the captures `c` so far and hands the rest of the input to the continuation
`k`; alternatives are tried in order of preference. -/
def Regex.run : Regex → GoString → Caps → (GoString → Caps → Option Caps) → Option Caps
  | .cls p, s, c, k =>
    match s with
    | [] => none
    | x :: t => if p x then k t c else none
  | .rep p min, s, c, k => repGreedy p min s (fun t => k t c)
  | .seq a b, s, c, k => a.run s c (fun t c1 => b.run t c1 k)
  | .opt a, s, c, k =>
    match a.run s c k with
    | some r => some r
    | none => k s c
  | .group i a, s, c, k =>
    a.run s c (fun t c1 => k t (Function.update c1 i (s.take (s.length - t.length))))
  | .eot, s, c, k => if s = [] then k s c else none

/-- Go's `re.FindStringSubmatch(s)` for a pattern that starts with `^` and has
`groups` capture groups: `nil` (the empty slice) when there is no match,
otherwise the whole match followed by the text of each group.  The leading `^`
is modelled by attempting the match at offset 0 only. -/
def findStringSubmatch (re : Regex) (groups : Nat) (s : GoString) : List GoString :=
  match (Regex.group 0 re).run s (fun _ => []) (fun _ c => some c) with
  | none => []
  | some c => (List.range (groups + 1)).map c

/-- The class `.` : any character except line feed. -/
def isDot (b : Nat) : Bool := b != 10

/-- The class `[a-zA-Z0-9]`. -/
def isAlnum (b : Nat) : Bool :=
  (97 ≤ b && b ≤ 122) || (65 ≤ b && b ≤ 90) || (48 ≤ b && b ≤ 57)

/-- The class `[^.]`. -/
def isNotPeriod (b : Nat) : Bool := b != 46

/-- The pattern `^(.+)_[a-zA-Z0-9]{6,}(\.[^.]*)?$` of `extractBaseName`. -/
def commitCodeRe : Regex :=
  .seq (.group 1 (.rep isDot 1))
    (.seq (.cls (fun b => b == 95))
      (.seq (.rep isAlnum 6)
        (.seq (.opt (.group 2 (.seq (.cls (fun b => b == 46)) (.rep isNotPeriod 0))))
          .eot)))

/-- Function `extractBaseName` (main.go:124): removes a commit code from a file name. -/
def extractBaseName (filename : GoString) : GoString :=
  let submatches := findStringSubmatch commitCodeRe 2 filename
  if submatches.length ≥ 2 then
    let baseName := submatches.getD 1 []
    if submatches.length ≥ 3 ∧ submatches.getD 2 [] ≠ [] then
      baseName ++ submatches.getD 2 []
    else
      baseName
  else
    filename

/-! ## Package `strings` -/

/-- Go's `strings.HasSuffix(s, suffix)`. -/
def hasSuffix (s suffix : GoString) : Bool :=
  decide (s.length ≥ suffix.length) && (s.drop (s.length - suffix.length) == suffix)

/-- Go's `strings.TrimSuffix(s, suffix)`. -/
def trimSuffix (s suffix : GoString) : GoString :=
  if hasSuffix s suffix then s.take (s.length - suffix.length) else s

/-- Scan for `sep` at offsets `i, i-1, …, 0` of `s`; `-1` when it occurs at none. -/
def lastIndexFrom (s sep : GoString) : Nat → Int
  | 0 => if (s.take sep.length) = sep then 0 else -1
  | i + 1 =>
    if ((s.drop (i + 1)).take sep.length) = sep then ((i + 1 : Nat) : Int)
    else lastIndexFrom s sep i

/-- Go's `strings.LastIndex(s, sep)`: the offset of the last occurrence of `sep` in
`s`, or `-1`. -/
def lastIndex (s sep : GoString) : Int :=
  if s.length < sep.length then -1 else lastIndexFrom s sep (s.length - sep.length)

/-- Function `extractZipBaseName` (main.go:142): everything before the last underscore
of the archive name without its `.zip` extension. -/
def extractZipBaseName (zipFileName : GoString) : GoString :=
  let name := trimSuffix zipFileName (str ".zip")
  let lastUnderscore := lastIndex name (str "_")
  if lastUnderscore = -1 then
    name
  else
    name.take lastUnderscore.toNat

/-! ## Package `unicode/utf8` -/

/-- The scan of `utf8.Valid`: `pending` continuation bytes of the current
encoding are still due, and the next one must lie in `lo..hi` (the
`acceptRanges` entry of the leading byte for the second byte of an encoding,
`0x80..0xBF` afterwards). -/
def utf8Scan : Nat → Nat → Nat → GoString → Bool
  | 0, _, _, [] => true
  | _ + 1, _, _, [] => false
  | 0, _, _, b :: rest =>
    if b < 0x80 then utf8Scan 0 0x80 0xBF rest
    else if 0xC2 ≤ b ∧ b ≤ 0xDF then utf8Scan 1 0x80 0xBF rest
    else if b = 0xE0 then utf8Scan 2 0xA0 0xBF rest
    else if (0xE1 ≤ b ∧ b ≤ 0xEC) ∨ b = 0xEE ∨ b = 0xEF then utf8Scan 2 0x80 0xBF rest
    else if b = 0xED then utf8Scan 2 0x80 0x9F rest
    else if b = 0xF0 then utf8Scan 3 0x90 0xBF rest
    else if 0xF1 ≤ b ∧ b ≤ 0xF3 then utf8Scan 3 0x80 0xBF rest
    else if b = 0xF4 then utf8Scan 3 0x80 0x8F rest
    else false
  | n + 1, lo, hi, b :: rest =>
    if lo ≤ b ∧ b ≤ hi then utf8Scan n 0x80 0xBF rest else false

/-- Go's `utf8.Valid(p)`: `p` consists entirely of valid UTF-8 encoded runes. -/
def utf8Valid (p : GoString) : Bool := utf8Scan 0 0x80 0xBF p

/-! ## Content classification -/

/-- The loop `for _, b := range content { if b == 0 { return true } }` of
`isBinaryContent`; `false` when the loop runs to its end. -/
def nullByteLoop : GoString → Bool
  | [] => false
  | b :: rest => if b = 0 then true else nullByteLoop rest

/-- Function `isBinaryContent` (main.go:263). -/
def isBinaryContent (content : GoString) : Bool :=
  if !utf8Valid content then
    true
  else if nullByteLoop content then
    true
  else
    false

/-! ## Diff generation -/

/-- Go's `strings.Split(s, "\n")`: the pieces of `s` between line feeds; always at
least one piece. -/
def splitLines : GoString → List GoString
  | [] => [[]]
  | c :: rest =>
    if c = 10 then [] :: splitLines rest
    else
      match splitLines rest with
      | [] => [[c]]
      | l :: ls => (c :: l) :: ls

/-- Function `generateDiff` (main.go:280): a positional line-by-line diff. -/
def generateDiff (content1 content2 fileName : GoString) : GoString :=
  if content1 = content2 then
    []
  else
    let lines1 := splitLines content1
    let lines2 := splitLines content2
    let diff := str "--- " ++ fileName ++ str " (ZIP 1)\n"
    let diff := diff ++ (str "+++ " ++ fileName ++ str " (ZIP 2)\n")
    let maxLines := if lines2.length > lines1.length then lines2.length else lines1.length
    (List.range maxLines).foldl
      (fun diff i =>
        let line1 := if i < lines1.length then lines1.getD i [] else []
        let line2 := if i < lines2.length then lines2.getD i [] else []
        if line1 ≠ line2 then
          let diff := if i < lines1.length then diff ++ (str "-" ++ line1 ++ str "\n") else diff
          if i < lines2.length then diff ++ (str "+" ++ line2 ++ str "\n") else diff
        else
          diff)
      diff

/-! ## Data model -/

/-- Type `FileInfo` (main.go:18). `Size` is `int64(len(content))`, which is never
negative and never overflows. -/
structure FileInfo where
  Name : GoString
  BaseName : GoString
  Size : Nat
  Hash : GoString
  Content : GoString
  IsBinary : Bool
  deriving DecidableEq

/-- Type `DiffInfo` (main.go:27). -/
structure DiffInfo where
  FileName : GoString
  Diff : GoString
  IsBinary : Bool
  deriving DecidableEq

/-- Type `ComparisonResult` (main.go:53). -/
structure ComparisonResult where
  OnlyInFirst : List GoString
  OnlyInSecond : List GoString
  Different : List GoString
  Identical : List GoString
  DiffDetails : List DiffInfo
  deriving DecidableEq

/-- A Go `map[string]FileInfo`: an association list whose keys are distinct. -/
abbrev FileMap := List (GoString × FileInfo)

/-- The keys of a map. -/
def mapKeys (m : FileMap) : List GoString := m.map Prod.fst

/-- The lookup `v, exists := m[key]`. -/
def mapGet : FileMap → GoString → Option FileInfo
  | [], _ => none
  | (k, v) :: rest, key => if k = key then some v else mapGet rest key

/-- The assignment `m[key] = v`. -/
def mapSet : FileMap → GoString → FileInfo → FileMap
  | [], key, v => [(key, v)]
  | (k, x) :: rest, key, v => if k = key then (k, v) :: rest else (k, x) :: mapSet rest key v

/-- The order in which one `range` loop visits a map: each entry exactly once,
in an order the language does not specify. -/
structure RangeOrder where
  visit : FileMap → FileMap
  perm : ∀ m, (visit m).Perm m

/-! ## Archive reading -/

/-- Go's `filepath.Base(path)` with `/` as the separator: the last element of the
path, after trailing slashes are removed. -/
def filepathBase (path : GoString) : GoString :=
  if path = [] then
    str "."
  else
    let path := (path.reverse.dropWhile (fun b => b == 47)).reverse
    let path := (path.reverse.takeWhile (fun b => b != 47)).reverse
    if path = [] then str "/" else path

/-- What `file.Open()` followed by `io.ReadAll` gives for one archive entry. -/
inductive EntryData where
  | content (bytes : GoString)
  | openFails
  | readFails
  deriving DecidableEq

/-- One `*zip.File` of `reader.File`: its name (the path inside the archive),
whether its mode bits mark a directory, and its data. -/
structure ZipFile where
  Name : GoString
  ModeDir : Bool
  Data : EntryData
  deriving DecidableEq

/-- Go's `file.FileInfo().IsDir()`: package `archive/zip` reports a directory when
the mode bits say so or when the name ends in a slash. -/
def ZipFile.isDir (file : ZipFile) : Bool :=
  file.ModeDir || (file.Name.getLast? == some 47)

/-- What `zip.OpenReader(zipPath)` gives: `none` when the archive cannot be
opened, otherwise `reader.File` in archive order. -/
abbrev ZipArchive := Option (List ZipFile)

/-- The errors of `readZipContents` and `compareZipFiles`. -/
inductive ZipError where
  | openZip
  | openFile (name : GoString)
  | readFile (name : GoString)
  | firstZip (e : ZipError)
  | secondZip (e : ZipError)
  deriving DecidableEq

/-- One iteration of the loop of `readZipContents` (main.go:329–379). The
parameter `sha` is `fmt.Sprintf("%x", sha256.Sum256(content))`. -/
def readZipStep (sha : GoString → GoString) (files : FileMap) (file : ZipFile) :
    Except ZipError FileMap :=
  if file.isDir then
    .ok files
  else
    match file.Data with
    | .openFails => .error (.openFile file.Name)
    | .readFails => .error (.readFile file.Name)
    | .content content =>
      let hash := sha content
      let baseName := extractBaseName (filepathBase file.Name)
      let isBinary := isBinaryContent content
      let contentStr := if !isBinary then content else []
      let fileInfo : FileInfo :=
        { Name := file.Name, BaseName := baseName, Size := content.length, Hash := hash,
          Content := contentStr, IsBinary := isBinary }
      let key := baseName
      match mapGet files key with
      | some existingFile =>
        if existingFile.Name.length > file.Name.length then
          .ok (mapSet files key fileInfo)
        else
          .ok files
      | none => .ok (mapSet files key fileInfo)

/-- The loop `for _, file := range reader.File` of `readZipContents`. -/
def readZipLoop (sha : GoString → GoString) : FileMap → List ZipFile → Except ZipError FileMap
  | files, [] => .ok files
  | files, file :: rest =>
    match readZipStep sha files file with
    | .error e => .error e
    | .ok files1 => readZipLoop sha files1 rest

/-- Function `readZipContents` (main.go:320). -/
def readZipContents (sha : GoString → GoString) (zip : ZipArchive) : Except ZipError FileMap :=
  match zip with
  | none => .error .openZip
  | some reader => readZipLoop sha [] reader

/-! ## Comparison -/

/-- One iteration of the first loop of `compareZipFiles` (main.go:403–426). -/
def compareFirstStep (files2 : FileMap) (result : ComparisonResult)
    (kv : GoString × FileInfo) : ComparisonResult :=
  let baseName := kv.1
  let file1 := kv.2
  match mapGet files2 baseName with
  | some file2 =>
    if file1.Hash = file2.Hash ∧ file1.Size = file2.Size then
      { result with Identical := result.Identical ++ [baseName] }
    else
      let isBinary := file1.IsBinary || file2.IsBinary
      let diff := if !isBinary then generateDiff file1.Content file2.Content baseName else []
      { result with
        Different := result.Different ++ [baseName]
        DiffDetails := result.DiffDetails ++
          [{ FileName := baseName, Diff := diff, IsBinary := isBinary }] }
  | none => { result with OnlyInFirst := result.OnlyInFirst ++ [baseName] }

/-- One iteration of the second loop of `compareZipFiles` (main.go:429–433). -/
def compareSecondStep (files1 : FileMap) (result : ComparisonResult)
    (kv : GoString × FileInfo) : ComparisonResult :=
  match mapGet files1 kv.1 with
  | some _ => result
  | none => { result with OnlyInSecond := result.OnlyInSecond ++ [kv.1] }

/-- The body of `compareZipFiles` once both archives are read (main.go:394–435):
the classification of the names of two entry collections. -/
def compareFileMaps (o1 o2 : RangeOrder) (files1 files2 : FileMap) : ComparisonResult :=
  let result : ComparisonResult :=
    { OnlyInFirst := [], OnlyInSecond := [], Different := [], Identical := [], DiffDetails := [] }
  let result := (o1.visit files1).foldl (compareFirstStep files2) result
  (o2.visit files2).foldl (compareSecondStep files1) result

/-- Function `compareZipFiles` (main.go:383). -/
def compareZipFiles (sha : GoString → GoString) (o1 o2 : RangeOrder) (zip1 zip2 : ZipArchive) :
    Except ZipError ComparisonResult :=
  match readZipContents sha zip1 with
  | .error e => .error (.firstZip e)
  | .ok files1 =>
    match readZipContents sha zip2 with
    | .error e => .error (.secondZip e)
    | .ok files2 => .ok (compareFileMaps o1 o2 files1 files2)


/-! ## Specification-side definitions -/

/-- Closed form of `_[a-zA-Z0-9]{6,}(\.[^.]*)?$`: the extension when the text
is an underscore, the longest run of at least 6 alphanumerics, and then either
nothing or a dot followed by dot-free characters. -/
def codeTail : GoString → Option GoString
  | [] => none
  | x :: r =>
    if x = 95 ∧ 6 ≤ (r.takeWhile isAlnum).length then
      match r.dropWhile isAlnum with
      | [] => some []
      | y :: e => if y = 46 ∧ e.all isNotPeriod = true then some (y :: e) else none
    else
      none

/-- The search of `(.+)` for the longest stem after which `codeTail` succeeds:
the stem and the extension of the match. -/
def stemSearch (s : GoString) : Option (GoString × GoString) :=
  repGreedy isDot 1 s
    (fun t => (codeTail t).map (fun ext => (s.take (s.length - t.length), ext)))

/-- A commit code: at least 6 characters, all in `[a-zA-Z0-9]`. -/
def IsCode (code : GoString) : Prop := 6 ≤ code.length ∧ ∀ x ∈ code, isAlnum x = true

/-- An optional extension: empty, or a dot followed by characters none of
which is a dot. -/
def IsExt (ext : GoString) : Prop := ext = [] ∨ ∃ e, ext = 46 :: e ∧ 46 ∉ e

/-- The name `n` is `stem + "_" + code + ext` with a non-empty stem. -/
def HasCommitCode (n stem code ext : GoString) : Prop :=
  n = stem ++ 95 :: (code ++ ext) ∧ stem ≠ [] ∧ IsCode code ∧ IsExt ext

/-- The entry `kv` of the first collection has a partner in `files2` with the
same hash and size. -/
def isIdentical (files2 : FileMap) (kv : GoString × FileInfo) : Bool :=
  match mapGet files2 kv.1 with
  | some file2 => decide (kv.2.Hash = file2.Hash ∧ kv.2.Size = file2.Size)
  | none => false

/-- The entry `kv` of the first collection has a partner in `files2` whose hash
or size differs. -/
def isDifferent (files2 : FileMap) (kv : GoString × FileInfo) : Bool :=
  match mapGet files2 kv.1 with
  | some file2 => !decide (kv.2.Hash = file2.Hash ∧ kv.2.Size = file2.Size)
  | none => false

/-- The key of `kv` is absent from `files`. -/
def isAbsent (files : FileMap) (kv : GoString × FileInfo) : Bool :=
  (mapGet files kv.1).isNone

/-- The diff record that `compareZipFiles` appends for a different entry. -/
def diffRecord (files2 : FileMap) (kv : GoString × FileInfo) : DiffInfo :=
  match mapGet files2 kv.1 with
  | some file2 =>
    { FileName := kv.1
      Diff := if !(kv.2.IsBinary || file2.IsBinary) then
          generateDiff kv.2.Content file2.Content kv.1 else []
      IsBinary := kv.2.IsBinary || file2.IsBinary }
  | none => { FileName := kv.1, Diff := [], IsBinary := false }

/-- The key under which `readZipContents` files an archive entry. -/
def entryKey (file : ZipFile) : GoString := extractBaseName (filepathBase file.Name)

/-- The non-directory entries of an archive, in archive order. -/
def fileEntries (reader : List ZipFile) : List ZipFile := reader.filter (fun f => !f.isDir)

/-- Every non-directory entry of the archive can be opened and read. -/
def Readable (reader : List ZipFile) : Prop :=
  ∀ f ∈ reader, f.isDir = false → ∃ c, f.Data = .content c

/-! ## Concrete inputs for the worked examples -/

/-- A `range` order that visits a map in insertion order. -/
def insertionOrder : RangeOrder := ⟨id, fun _ => List.Perm.refl _⟩

/-- A `range` order that visits a map in reverse insertion order. -/
def reverseOrder : RangeOrder := ⟨List.reverse, fun m => List.reverse_perm m⟩

/-- A stand-in for the SHA-256 hex digest in the worked examples: the content
itself (distinct contents get distinct digests). -/
def toyDigest (content : GoString) : GoString := content

/-- An archive of regular files, as `createTestZip` of the test suite writes
it: the given names and contents in the given order. -/
def zipOf (files : List (String × String)) : ZipArchive :=
  some (files.map (fun nc => { Name := str nc.1, ModeDir := false, Data := .content (str nc.2) }))

/-- The bytes of an archive entry (empty when it cannot be read). -/
def entryContent (file : ZipFile) : GoString :=
  match file.Data with
  | .content c => c
  | _ => []

/-- The `FileInfo` that `readZipContents` builds for a readable entry. -/
def entryInfo (sha : GoString → GoString) (file : ZipFile) : FileInfo :=
  { Name := file.Name
    BaseName := entryKey file
    Size := (entryContent file).length
    Hash := sha (entryContent file)
    Content := if !isBinaryContent (entryContent file) then entryContent file else []
    IsBinary := isBinaryContent (entryContent file) }

/-- The first archive of `TestCompareZipsWithCommitCodes`. -/
def commitCodesZip1 : List ZipFile :=
  [{ Name := str "file_abc123.txt", ModeDir := false, Data := .content (str "same content") },
    { Name := str "script_def456.js", ModeDir := false, Data := .content (str "same script") }]

/-- The second archive of `TestCompareZipsWithCommitCodes`, written in the
other order. -/
def commitCodesZip2 : List ZipFile :=
  [{ Name := str "script_uvw012.js", ModeDir := false, Data := .content (str "same script") },
    { Name := str "file_xyz789.txt", ModeDir := false, Data := .content (str "same content") }]

/-! ## Pair matching -/

/-- Type `ZipPair` (main.go:61). -/
structure ZipPair where
  BaseName : GoString
  Zip1Path : GoString
  Zip2Path : GoString
  deriving DecidableEq

/-- A Go `map[string]string`: an association list whose keys are distinct. -/
abbrev PathMap := List (GoString × GoString)

/-- The lookup `v, exists := m[key]` in a `map[string]string`. -/
def pathMapGet : PathMap → GoString → Option GoString
  | [], _ => none
  | (k, v) :: rest, key => if k = key then some v else pathMapGet rest key

/-- The assignment `m[key] = v` in a `map[string]string`. -/
def pathMapSet : PathMap → GoString → GoString → PathMap
  | [], key, v => [(key, v)]
  | (k, x) :: rest, key, v =>
    if k = key then (k, v) :: rest else (k, x) :: pathMapSet rest key v

/-- The errors of `findZipPairs`: the listing of the first or of the second
directory failed. -/
inductive PairError where
  | readDir1
  | readDir2
  deriving DecidableEq

/-- Function `findZipPairs` (main.go:156). The arguments are what
`filepath.Glob(filepath.Join(dir, "*.zip"))` gives for the two directories:
`none` for an error, otherwise the matching paths in listing order. -/
def findZipPairs (glob1 glob2 : Option (List GoString)) : Except PairError (List ZipPair) :=
  match glob1 with
  | none => .error .readDir1
  | some files1 =>
    match glob2 with
    | none => .error .readDir2
    | some files2 =>
      let dir2Map : PathMap :=
        files2.foldl
          (fun dir2Map file2 =>
            let baseName := extractZipBaseName (filepathBase file2)
            pathMapSet dir2Map baseName file2)
          []
      let pairs : List ZipPair :=
        files1.foldl
          (fun pairs file1 =>
            let baseName := extractZipBaseName (filepathBase file1)
            match pathMapGet dir2Map baseName with
            | some file2 =>
              pairs ++ [{ BaseName := baseName, Zip1Path := file1, Zip2Path := file2 }]
            | none => pairs)
          []
      .ok pairs

/-! ## Specification-side definitions for the reader, the diff and the pairs -/

/-- The entry `e` stored under `k` comes from the first entry of minimal
raw-name length among the entries with key `k`: every such entry before it has
a strictly longer raw name, every such entry after it has a raw name at least
as long. -/
def KeptUnder (sha : GoString → GoString) (entries : List ZipFile) (k : GoString)
    (e : FileInfo) : Prop :=
  ∃ pre f post, entries = pre ++ f :: post ∧ entryKey f = k ∧ (∃ c, f.Data = .content c) ∧
    e = entryInfo sha f ∧
    (∀ g ∈ pre, entryKey g = k → f.Name.length < g.Name.length) ∧
    (∀ g ∈ post, entryKey g = k → f.Name.length ≤ g.Name.length)

/-- The collection `files` is what the reading loop has to hold after the
entries `done`: nothing under a key no entry has, and under every other key the
first entry of minimal raw-name length. -/
def ReadInvariant (sha : GoString → GoString) (done : List ZipFile) (files : FileMap) : Prop :=
  ∀ k, (mapGet files k = none → ∀ f ∈ fileEntries done, entryKey f ≠ k) ∧
    (∀ e, mapGet files k = some e → KeptUnder sha (fileEntries done) k e)

/-- The two-line header of a diff: `--- name (ZIP 1)` and `+++ name (ZIP 2)`. -/
def diffHeader (fileName : GoString) : GoString :=
  str "--- " ++ fileName ++ str " (ZIP 1)\n" ++ (str "+++ " ++ fileName ++ str " (ZIP 2)\n")

/-- The contribution of index `i` to the body of a diff: nothing when line `i`
is the same on both sides (a missing line counting as the empty line),
otherwise a removed-line marker for the first side's line if it has one,
followed by an added-line marker for the second side's line if it has one. -/
def diffLine (lines1 lines2 : List GoString) (i : Nat) : GoString :=
  if lines1.getD i [] = lines2.getD i [] then
    []
  else
    (if i < lines1.length then str "-" ++ lines1.getD i [] ++ str "\n" else []) ++
      (if i < lines2.length then str "+" ++ lines2.getD i [] ++ str "\n" else [])

/-- The body of a diff as the specification words it: the contributions of the
indices `0 .. max (len lines1) (len lines2) - 1`, in increasing order. -/
def diffBody (lines1 lines2 : List GoString) : GoString :=
  ((List.range (max lines1.length lines2.length)).map (diffLine lines1 lines2)).flatten

/-- The normalized archive name of a path: `extractZipBaseName` of its file
name. -/
def zipKey (path : GoString) : GoString := extractZipBaseName (filepathBase path)

/-- The last path of a listing with the normalized archive name `k`. -/
def lastWithKey (files : List GoString) (k : GoString) : Option GoString :=
  files.reverse.find? (fun f => zipKey f = k)

/-- A non-directory entry whose raw name is as short as that of any entry with
the same key. -/
def IsShortest (reader : List ZipFile) (f : ZipFile) : Prop :=
  f ∈ fileEntries reader ∧
    ∀ g ∈ fileEntries reader, entryKey g = entryKey f → f.Name.length ≤ g.Name.length


/-! ## Concrete inputs for the reader, the diff and the pairs -/

/-- An archive with three entries that normalize to `file.txt`: one with a
commit code in a directory, one without a commit code, one with a commit code
at the top level. -/
def collidingZip : List ZipFile :=
  [{ Name := str "docs/file_abc123.txt", ModeDir := false, Data := .content (str "first") },
    { Name := str "file.txt", ModeDir := false, Data := .content (str "second") },
    { Name := str "file_def456.txt", ModeDir := false, Data := .content (str "third") }]

/-- An archive in which two entries of the same raw-name length normalize to
`a.txt` and have the same content. -/
def tiedZip : List ZipFile :=
  [{ Name := str "a_abc123.txt", ModeDir := false, Data := .content (str "x") },
    { Name := str "a_def456.txt", ModeDir := false, Data := .content (str "x") },
    { Name := str "b.txt", ModeDir := false, Data := .content (str "y") }]
/-! ## Specification-side definitions for the collection and the empty diff body -/

/-- A line sequence padded with empty lines to the length `n`. -/
def padLines (n : Nat) (lines : List GoString) : List GoString :=
  lines ++ List.replicate (n - lines.length) []

/-- An archive with a directory entry, two files in different directories
that normalize to `file.txt`, and a binary file. -/
def mixedZip : List ZipFile :=
  [{ Name := str "docs/", ModeDir := true, Data := .content [] },
    { Name := str "docs/file_abc123.txt", ModeDir := false, Data := .content (str "one") },
    { Name := str "src/file.txt", ModeDir := false, Data := .content (str "two") },
    { Name := str "logo.png", ModeDir := false, Data := .content [137, 80, 0, 71] }]

/-- The first collection of the symmetry example: a text file, a binary file
and a file the other side lacks. -/
def swapFilesA : FileMap :=
  [(str "different.txt", ⟨str "different.txt", str "different.txt", 2, str "h1", str "t1",
      false⟩),
    (str "binary.exe", ⟨str "binary.exe", str "binary.exe", 4, str "h2", [], true⟩),
    (str "onlyinfirst.txt", ⟨str "onlyinfirst.txt", str "onlyinfirst.txt", 1, str "h3", str "x",
      false⟩)]

/-- The second collection of the symmetry example. -/
def swapFilesB : FileMap :=
  [(str "binary.exe", ⟨str "binary.exe", str "binary.exe", 2, str "h5", str "ab", false⟩),
    (str "different.txt", ⟨str "different.txt", str "different.txt", 2, str "h4", str "t2",
      false⟩)]


/-! ## Lemmas on the matcher -/

theorem repGreedy_eq_none {α : Type} (p : Nat → Bool) (k : GoString → Option α) :
    ∀ (s : GoString) (min : Nat),
      repGreedy p min s k = none ↔
        ∀ a b, s = a ++ b → min ≤ a.length → (∀ x ∈ a, p x = true) → k b = none := by
  intro s
  induction s with
  | nil =>
    intro min
    simp only [repGreedy]
    constructor
    · intro h a b hab hmin _
      have ha : a = [] := by
        cases a with
        | nil => rfl
        | cons y ys => simp at hab
      subst ha
      simp at hab hmin
      subst hab
      simpa [hmin] using h
    · intro h
      by_cases hmin : min = 0
      · simpa [hmin] using h [] [] rfl (by simp [hmin]) (by simp)
      · simp [hmin]
  | cons x t ih =>
    intro min
    simp only [repGreedy]
    constructor
    · intro h a b hab hmin hp
      cases a with
      | nil =>
        simp at hab hmin
        subst hab
        split at h
        · simp at h
        · simpa [hmin] using h
      | cons y ys =>
        simp at hab
        obtain ⟨hxy, ht⟩ := hab
        subst hxy
        have hpx : p x = true := hp x (by simp)
        simp only [hpx, if_true] at h
        split at h
        · simp at h
        · rename_i hin
          exact (ih (min - 1)).1 hin ys b ht (by simp at hmin; omega)
            (fun z hz => hp z (by simp [hz]))
    · intro h
      have hin : (if p x = true then repGreedy p (min - 1) t k else none) = none := by
        by_cases hpx : p x = true
        · simp only [hpx, if_true]
          refine (ih (min - 1)).2 ?_
          intro a b hab hmin hp
          refine h (x :: a) b (by simp [hab]) (by simp; omega) ?_
          intro z hz
          simp at hz
          rcases hz with hz | hz
          · simpa [hz] using hpx
          · exact hp z hz
        · simp [hpx]
      rw [hin]
      by_cases hmin : min = 0
      · simpa [hmin] using h [] (x :: t) rfl (by simp [hmin]) (by simp)
      · simp [hmin]

theorem repGreedy_eq_some {α : Type} (p : Nat → Bool) (k : GoString → Option α) :
    ∀ (s : GoString) (min : Nat) (r : α),
      repGreedy p min s k = some r ↔
        ∃ a b, s = a ++ b ∧ min ≤ a.length ∧ (∀ x ∈ a, p x = true) ∧ k b = some r ∧
          ∀ a1 b1, s = a1 ++ b1 → (∀ x ∈ a1, p x = true) → a.length < a1.length →
            k b1 = none := by
  intro s
  induction s with
  | nil =>
    intro min r
    simp only [repGreedy]
    constructor
    · intro h
      by_cases hmin : min = 0
      · refine ⟨[], [], rfl, by simp [hmin], by simp, by simpa [hmin] using h, ?_⟩
        intro a1 b1 hab _ hlt
        cases a1 with
        | nil => simp at hlt
        | cons y ys => simp at hab
      · simp [hmin] at h
    · rintro ⟨a, b, hab, hmin, _, hk, _⟩
      cases a with
      | nil =>
        simp at hab hmin
        subst hab
        simpa [hmin] using hk
      | cons y ys => simp at hab
  | cons x t ih =>
    intro min r
    simp only [repGreedy]
    by_cases hpx : p x = true
    · simp only [hpx, if_true]
      cases hin : repGreedy p (min - 1) t k with
      | some r1 =>
        simp only
        constructor
        · intro h
          have hr : r1 = r := by simpa using h
          subst hr
          obtain ⟨a, b, hab, hmin, hp, hk, hmax⟩ := (ih (min - 1) r1).1 hin
          refine ⟨x :: a, b, by simp [hab], by simp; omega, ?_, hk, ?_⟩
          · intro z hz
            simp at hz
            rcases hz with hz | hz
            · simpa [hz] using hpx
            · exact hp z hz
          · intro a1 b1 hab1 hp1 hlt
            cases a1 with
            | nil => simp at hlt
            | cons y ys =>
              simp at hab1
              exact hmax ys b1 hab1.2 (fun z hz => hp1 z (by simp [hz])) (by simpa using hlt)
        · rintro ⟨a, b, hab, hmin, hp, hk, hmax⟩
          cases a with
          | nil =>
            obtain ⟨a2, b2, hab2, _, hp2, hk2, _⟩ := (ih (min - 1) r1).1 hin
            have := hmax (x :: a2) b2 (by simp [hab2]) (by
              intro z hz
              simp at hz
              rcases hz with hz | hz
              · simpa [hz] using hpx
              · exact hp2 z hz) (by simp)
            rw [this] at hk2
            simp at hk2
          | cons y ys =>
            simp at hab
            have h2 : repGreedy p (min - 1) t k = some r :=
              (ih (min - 1) r).2 ⟨ys, b, hab.2, by simp at hmin; omega,
                fun z hz => hp z (by simp [hz]), hk, fun a1 b1 hab1 hp1 hlt =>
                  hmax (x :: a1) b1 (by simp [hab1]) (by
                    intro z hz
                    simp at hz
                    rcases hz with hz | hz
                    · simpa [hz] using hpx
                    · exact hp1 z hz) (by simpa using hlt)⟩
            rw [hin] at h2
            exact h2
      | none =>
        simp only
        have hnone := (repGreedy_eq_none p k t (min - 1)).1 hin
        constructor
        · intro h
          by_cases hmin : min = 0
          · refine ⟨[], x :: t, rfl, by simp [hmin], by simp, by simpa [hmin] using h, ?_⟩
            intro a1 b1 hab1 hp1 _
            cases a1 with
            | nil =>
              simp at hab1
              rename_i hlt
              simp at hlt
            | cons y ys =>
              simp at hab1
              exact hnone ys b1 hab1.2 (by simp [hmin]) (fun z hz => hp1 z (by simp [hz]))
          · simp [hmin] at h
        · rintro ⟨a, b, hab, hmin, hp, hk, _⟩
          cases a with
          | nil =>
            simp at hab hmin
            subst hab
            simpa [hmin] using hk
          | cons y ys =>
            simp at hab
            have := hnone ys b hab.2 (by simp at hmin; omega) (fun z hz => hp z (by simp [hz]))
            rw [this] at hk
            simp at hk
    · simp only [hpx]
      simp only [Bool.false_eq_true, if_false]
      constructor
      · intro h
        by_cases hmin : min = 0
        · refine ⟨[], x :: t, rfl, by simp [hmin], by simp, by simpa [hmin] using h, ?_⟩
          intro a1 b1 hab1 hp1 hlt
          cases a1 with
          | nil => simp at hlt
          | cons y ys =>
            simp at hab1
            have := hp1 y (by simp)
            rw [← hab1.1] at this
            exact absurd this hpx
        · simp [hmin] at h
      · rintro ⟨a, b, hab, hmin, hp, hk, _⟩
        cases a with
        | nil =>
          simp at hab hmin
          subst hab
          simpa [hmin] using hk
        | cons y ys =>
          simp at hab
          have := hp y (by simp)
          rw [← hab.1] at this
          exact absurd this hpx

theorem repGreedy_map {α β : Type} (p : Nat → Bool) (f : α → β) (k : GoString → Option α) :
    ∀ (s : GoString) (min : Nat),
      (repGreedy p min s k).map f = repGreedy p min s (fun t => (k t).map f) := by
  intro s
  induction s with
  | nil =>
    intro min
    simp only [repGreedy]
    split <;> simp
  | cons x t ih =>
    intro min
    simp only [repGreedy]
    by_cases hpx : p x = true
    · simp only [hpx, if_true, ← ih (min - 1)]
      cases repGreedy p (min - 1) t k with
      | some r => simp
      | none =>
        simp only [Option.map_none']
        split <;> simp
    · simp only [hpx, Bool.false_eq_true, if_false]
      split <;> simp

/-- When the rest of the pattern cannot start with a character of the class,
a greedy repetition takes the whole run of such characters. -/
theorem repGreedy_maximal {α : Type} (p : Nat → Bool) (k : GoString → Option α)
    (hk : ∀ x t, p x = true → k (x :: t) = none) :
    ∀ (s : GoString) (min : Nat),
      repGreedy p min s k =
        if min ≤ (s.takeWhile p).length then k (s.dropWhile p) else none := by
  intro s
  induction s with
  | nil =>
    intro min
    simp [repGreedy]
  | cons x t ih =>
    intro min
    simp only [repGreedy]
    by_cases hpx : p x = true
    · simp only [hpx, if_true, ih (min - 1), List.takeWhile_cons_of_pos,
        List.dropWhile_cons_of_pos, List.length_cons]
      by_cases hm : min - 1 ≤ (t.takeWhile p).length
      · have hm2 : min ≤ (t.takeWhile p).length + 1 := by omega
        simp only [hm, hm2, if_true]
        cases hd : k (t.dropWhile p) with
        | some r => rfl
        | none =>
          simp only
          split
          · exact hk x t hpx
          · rfl
      · have hm2 : ¬ min ≤ (t.takeWhile p).length + 1 := by omega
        have hm3 : min ≠ 0 := by omega
        simp [hm, hm2, hm3]
    · have hpx2 : ¬ (p x = true) := hpx
      simp only [hpx, Bool.false_eq_true, if_false, List.takeWhile_cons_of_neg hpx2,
        List.dropWhile_cons_of_neg hpx2, List.length_nil, Nat.le_zero_eq]

theorem isAlnum_ne_period {x : Nat} (h : isAlnum x = true) : x ≠ 46 := by
  intro hx
  subst hx
  simp [isAlnum] at h

theorem isAlnum_ne_underscore {x : Nat} (h : isAlnum x = true) : x ≠ 95 := by
  intro hx
  subst hx
  simp [isAlnum] at h

theorem dropWhile_eq_nil_iff_all (p : Nat → Bool) (l : GoString) :
    l.dropWhile p = [] ↔ l.all p = true := by
  induction l with
  | nil => simp
  | cons x t ih =>
    by_cases hpx : p x = true
    · simp [List.dropWhile_cons_of_pos hpx, hpx, ih]
    · simp [List.dropWhile_cons_of_neg hpx, hpx]

/-- The optional extension and the end anchor, `(\.[^.]*)?$`, in closed form. -/
theorem run_ext (u : GoString) (c : Caps) (K : GoString → Caps → Option Caps) :
    (Regex.seq (.opt (.group 2 (.seq (.cls (fun b => b == 46)) (.rep isNotPeriod 0)))) .eot).run
        u c K =
      match u with
      | [] => K [] c
      | y :: e =>
        if y = 46 ∧ e.all isNotPeriod = true then K [] (Function.update c 2 (y :: e)) else none := by
  cases u with
  | nil => simp [Regex.run]
  | cons y e =>
    simp only [Regex.run]
    by_cases hy : y = 46
    · subst hy
      simp only [beq_self_eq_true, if_true, true_and]
      rw [repGreedy_maximal isNotPeriod _ (by intro x t _; simp) e 0]
      simp only [Nat.zero_le, if_true]
      by_cases hall : e.all isNotPeriod = true
      · have hd := (dropWhile_eq_nil_iff_all isNotPeriod e).2 hall
        simp only [hd, hall, if_true, List.length_nil, Nat.sub_zero, List.take_length]
        cases K [] (Function.update c 2 (46 :: e)) <;> simp
      · have hd : ¬ (e.dropWhile isNotPeriod = []) :=
          fun h => hall ((dropWhile_eq_nil_iff_all isNotPeriod e).1 h)
        simp [hd, hall]
    · have hy2 : (y == 46) = false := by simpa using hy
      simp [hy2, hy]

theorem run_seq (a b : Regex) (s : GoString) (c : Caps) (K : GoString → Caps → Option Caps) :
    (Regex.seq a b).run s c K = a.run s c (fun t c1 => b.run t c1 K) := by
  rw [Regex.run]

theorem run_rep (p : Nat → Bool) (min : Nat) (s : GoString) (c : Caps)
    (K : GoString → Caps → Option Caps) :
    (Regex.rep p min).run s c K = repGreedy p min s (fun t => K t c) := by
  rw [Regex.run]

theorem run_cls_cons (p : Nat → Bool) (x : Nat) (t : GoString) (c : Caps)
    (K : GoString → Caps → Option Caps) :
    (Regex.cls p).run (x :: t) c K = if p x = true then K t c else none := by
  rw [Regex.run]

theorem run_group (i : Nat) (a : Regex) (s : GoString) (c : Caps)
    (K : GoString → Caps → Option Caps) :
    (Regex.group i a).run s c K =
      a.run s c (fun t c1 => K t (Function.update c1 i (s.take (s.length - t.length)))) := by
  rw [Regex.run]

/-- The part of the pattern after the stem, `_[a-zA-Z0-9]{6,}(\.[^.]*)?$`, in
closed form. -/
theorem run_codeTail (b : GoString) (c : Caps) (K : GoString → Caps → Option Caps) :
    (Regex.seq (.cls (fun b => b == 95))
        (.seq (.rep isAlnum 6)
          (.seq (.opt (.group 2 (.seq (.cls (fun b => b == 46)) (.rep isNotPeriod 0))))
            .eot))).run b c K =
      match codeTail b with
      | none => none
      | some ext => K [] (if ext = [] then c else Function.update c 2 ext) := by
  cases b with
  | nil => simp [Regex.run, codeTail]
  | cons x r =>
    rw [run_seq, run_cls_cons]
    by_cases hx : x = 95
    · subst hx
      simp only [beq_self_eq_true, if_true]
      rw [run_seq, run_rep]
      rw [repGreedy_maximal isAlnum
        (fun t => (Regex.seq (.opt (.group 2 (.seq (.cls (fun b => b == 46))
          (.rep isNotPeriod 0)))) .eot).run t c K) (by
        intro y t hy
        show (Regex.seq (.opt (.group 2 (.seq (.cls (fun b => b == 46))
          (.rep isNotPeriod 0)))) .eot).run (y :: t) c K = none
        rw [run_ext]
        simp [isAlnum_ne_period hy]) r 6]
      simp only [codeTail, true_and]
      by_cases h6 : 6 ≤ (r.takeWhile isAlnum).length
      · simp only [h6, if_true]
        rw [run_ext]
        cases hd : r.dropWhile isAlnum with
        | nil => simp
        | cons y e =>
          simp only
          by_cases hye : y = 46 ∧ e.all isNotPeriod = true
          · simp [hye]
          · simp only [hye, if_false]
      · simp only [h6, if_false]
    · have hx2 : (x == 95) = false := by simpa using hx
      simp [hx2, hx, codeTail]

theorem run_commitCodeRe (s : GoString) :
    (Regex.group 0 commitCodeRe).run s (fun _ => []) (fun _ c => some c) =
      (stemSearch s).map (fun p =>
        Function.update
          (if p.2 = [] then Function.update (fun _ => []) 1 p.1
            else Function.update (Function.update (fun _ => []) 1 p.1) 2 p.2) 0 s) := by
  unfold stemSearch
  rw [repGreedy_map]
  rw [run_group, commitCodeRe, run_seq, run_group, run_rep]
  congr 1
  funext t
  rw [run_codeTail]
  cases codeTail t with
  | none => simp
  | some ext => simp

theorem findStringSubmatch_commitCodeRe (s : GoString) :
    findStringSubmatch commitCodeRe 2 s =
      match stemSearch s with
      | none => []
      | some p => [s, p.1, p.2] := by
  unfold findStringSubmatch
  rw [run_commitCodeRe]
  cases stemSearch s with
  | none => simp
  | some p =>
    simp only [Option.map_some']
    by_cases h : p.2 = []
    · simp [List.range_succ, Function.update, h]
    · simp [List.range_succ, Function.update, h]

/-- Closed form of `extractBaseName`. -/
theorem extractBaseName_eq (s : GoString) :
    extractBaseName s =
      match stemSearch s with
      | none => s
      | some p => p.1 ++ p.2 := by
  unfold extractBaseName
  rw [findStringSubmatch_commitCodeRe]
  cases stemSearch s with
  | none => simp
  | some p =>
    by_cases h : p.2 = []
    · simp [h]
    · simp [h]

theorem takeWhile_append_stop (p : Nat → Bool) (a b : GoString) (ha : ∀ x ∈ a, p x = true)
    (hb : b = [] ∨ ∃ y e, b = y :: e ∧ p y = false) :
    (a ++ b).takeWhile p = a ∧ (a ++ b).dropWhile p = b := by
  induction a with
  | nil =>
    rcases hb with hb | ⟨y, e, hb, hy⟩
    · subst hb
      simp
    · subst hb
      simp [hy]
  | cons x t ih =>
    have hx : p x = true := ha x (by simp)
    have := ih (fun z hz => ha z (by simp [hz]))
    simp [hx, this.1, this.2]

theorem codeTail_eq_some_iff (b ext : GoString) :
    codeTail b = some ext ↔ ∃ code, b = 95 :: (code ++ ext) ∧ IsCode code ∧ IsExt ext := by
  constructor
  · intro h
    cases b with
    | nil => simp [codeTail] at h
    | cons x r =>
      simp only [codeTail] at h
      split at h
      · rename_i hx
        obtain ⟨hx, h6⟩ := hx
        subst hx
        have hsplit : r.takeWhile isAlnum ++ r.dropWhile isAlnum = r :=
          List.takeWhile_append_dropWhile isAlnum r
        have hcode : IsCode (r.takeWhile isAlnum) :=
          ⟨h6, fun z hz => List.mem_takeWhile_imp hz⟩
        cases hd : r.dropWhile isAlnum with
        | nil =>
          rw [hd] at h hsplit
          simp at h
          subst h
          exact ⟨r.takeWhile isAlnum, by rw [hsplit], hcode, Or.inl rfl⟩
        | cons y e =>
          rw [hd] at h hsplit
          simp only at h
          split at h
          · rename_i hy
            simp at h
            subst h
            obtain ⟨hy, hall⟩ := hy
            subst hy
            refine ⟨r.takeWhile isAlnum, by rw [hsplit], hcode, Or.inr ⟨e, rfl, ?_⟩⟩
            intro hmem
            have := (List.all_eq_true.1 hall) 46 hmem
            simp [isNotPeriod] at this
          · simp at h
      · simp at h
  · rintro ⟨code, hb, hcode, hext⟩
    subst hb
    have hstop : ext = [] ∨ ∃ y e, ext = y :: e ∧ isAlnum y = false := by
      rcases hext with h | ⟨e, h, _⟩
      · exact Or.inl h
      · exact Or.inr ⟨46, e, h, by decide⟩
    obtain ⟨htw, hdw⟩ := takeWhile_append_stop isAlnum code ext hcode.2 hstop
    simp only [codeTail, htw, hdw, hcode.1, and_self, if_true]
    rcases hext with h | ⟨e, h, hne⟩
    · subst h
      rfl
    · subst h
      have hall : e.all isNotPeriod = true := by
        rw [List.all_eq_true]
        intro z hz
        simp only [isNotPeriod, bne_iff_ne, ne_eq]
        intro h46
        exact hne (h46 ▸ hz)
      simp [hall]

theorem all_isDot_iff (a : GoString) : (∀ x ∈ a, isDot x = true) ↔ 10 ∉ a := by
  constructor
  · intro h hmem
    have := h 10 hmem
    simp [isDot] at this
  · intro h x hx
    simp only [isDot, bne_iff_ne, ne_eq]
    intro hx10
    exact h (hx10 ▸ hx)

/-- What `stemSearch` finds is a decomposition of the name. -/
theorem stemSearch_some {n stem ext : GoString} (h : stemSearch n = some (stem, ext)) :
    (∃ code, HasCommitCode n stem code ext) ∧ 10 ∉ stem := by
  unfold stemSearch at h
  obtain ⟨a, b, hab, hmin, hp, hk, _⟩ := (repGreedy_eq_some isDot _ n 1 (stem, ext)).1 h
  cases hc : codeTail b with
  | none => simp [hc] at hk
  | some ext1 =>
    rw [hc] at hk
    simp only [Option.map_some', Option.some.injEq, Prod.mk.injEq] at hk
    obtain ⟨hstem, hext⟩ := hk
    subst hext
    have ha : stem = a := by
      rw [← hstem, hab]
      simp
    subst ha
    obtain ⟨code, hb, hcode, hext⟩ := (codeTail_eq_some_iff b ext1).1 hc
    refine ⟨⟨code, ⟨by rw [hab, hb], ?_, hcode, hext⟩⟩, (all_isDot_iff stem).1 hp⟩
    intro hnil
    subst hnil
    simp at hmin

/-- When `stemSearch` finds nothing, every decomposition of the name has a
line feed in its stem. -/
theorem stemSearch_none {n : GoString} (h : stemSearch n = none) :
    ∀ stem code ext, HasCommitCode n stem code ext → 10 ∈ stem := by
  intro stem code ext hd
  by_contra hnl
  unfold stemSearch at h
  obtain ⟨hn, hne, hcode, hext⟩ := hd
  have := (repGreedy_eq_none isDot _ n 1).1 h stem (95 :: (code ++ ext)) hn
    (by
      cases stem with
      | nil => exact absurd rfl hne
      | cons y ys => simp)
    ((all_isDot_iff stem).2 hnl)
  have hc : codeTail (95 :: (code ++ ext)) = some ext :=
    (codeTail_eq_some_iff _ ext).2 ⟨code, rfl, hcode, hext⟩
  simp [hc] at this

/-- A decomposition whose stem has no line feed and whose extension does not
itself end in a commit code is the one `stemSearch` finds. -/
theorem stemSearch_of_decomposition {n stem code ext : GoString}
    (hd : HasCommitCode n stem code ext) (hnl : 10 ∉ stem)
    (hamb : ¬ ∃ x code2, ext = x ++ 95 :: code2 ∧ IsCode code2) :
    stemSearch n = some (stem, ext) := by
  obtain ⟨hn, hne, hcode, hext⟩ := hd
  unfold stemSearch
  refine (repGreedy_eq_some isDot _ n 1 (stem, ext)).2
    ⟨stem, 95 :: (code ++ ext), hn, ?_, (all_isDot_iff stem).2 hnl, ?_, ?_⟩
  · cases stem with
    | nil => exact absurd rfl hne
    | cons y ys => simp
  · have hc : codeTail (95 :: (code ++ ext)) = some ext :=
      (codeTail_eq_some_iff _ ext).2 ⟨code, rfl, hcode, hext⟩
    rw [hc, hn]
    simp
  · intro a1 b1 hab1 _ hlt
    cases hc : codeTail b1 with
    | none => simp
    | some ext1 =>
      exfalso
      obtain ⟨code1, hb1, hcode1, hext1⟩ := (codeTail_eq_some_iff b1 ext1).1 hc
      rw [hn] at hab1
      rcases (List.append_eq_append_iff.1 hab1) with ⟨m, ha1, hm⟩ | ⟨m, hstem, _⟩
      · -- `a1 = stem ++ m` and `_ code ext = m ++ b1`
        cases m with
        | nil =>
          rw [ha1] at hlt
          simp at hlt
        | cons y m1 =>
          simp only [List.cons_append, List.cons.injEq] at hm
          obtain ⟨_, hm⟩ := hm
          -- `code ++ ext = m1 ++ b1`
          have hsuf : ∃ e1, ext = e1 ++ b1 := by
            rcases (List.append_eq_append_iff.1 hm) with ⟨c1, _, hb⟩ | ⟨c1, hcd, hb⟩
            · exact ⟨c1, hb⟩
            · cases c1 with
              | nil => exact ⟨[], by simpa using hb.symm⟩
              | cons z c2 =>
                exfalso
                rw [hb1] at hb
                simp only [List.cons_append, List.cons.injEq] at hb
                have hz : z ∈ code := by
                  rw [hcd]
                  simp
                exact isAlnum_ne_underscore (hcode.2 z hz) hb.1.symm
          obtain ⟨e1, he1⟩ := hsuf
          rw [hb1] at he1
          rcases hext1 with h1 | ⟨e2, h1, _⟩
          · subst h1
            exact hamb ⟨e1, code1, by simpa using he1, hcode1⟩
          · subst h1
            rcases hext with h0 | ⟨e0, h0, hne0⟩
            · rw [h0] at he1
              simp at he1
            · rw [h0] at he1
              cases e1 with
              | nil => simp at he1
              | cons z e3 =>
                simp only [List.cons_append, List.cons.injEq] at he1
                apply hne0
                rw [he1.2]
                simp
      · -- `stem = a1 ++ m`: the other stem is not longer
        rw [hstem] at hlt
        simp at hlt

theorem extractBaseName_of_stemSearch_none {n : GoString} (h : stemSearch n = none) :
    extractBaseName n = n := by
  rw [extractBaseName_eq, h]

theorem extractBaseName_of_stemSearch_some {n stem ext : GoString}
    (h : stemSearch n = some (stem, ext)) : extractBaseName n = stem ++ ext := by
  rw [extractBaseName_eq, h]

theorem stemSearch_none_of_no_decomposition {n : GoString}
    (h : ¬ ∃ stem code ext, HasCommitCode n stem code ext ∧ 10 ∉ stem) :
    stemSearch n = none := by
  cases hs : stemSearch n with
  | none => rfl
  | some p =>
    exfalso
    obtain ⟨stem, ext⟩ := p
    obtain ⟨⟨code, hd⟩, hnl⟩ := stemSearch_some hs
    exact h ⟨stem, code, ext, hd, hnl⟩

theorem underscore_mem_of_hasCommitCode {n stem code ext : GoString}
    (h : HasCommitCode n stem code ext) : 95 ∈ n := by
  rw [h.1]
  simp

theorem extractBaseName_of_no_underscore {n : GoString} (h : 95 ∉ n) :
    extractBaseName n = n := by
  apply extractBaseName_of_stemSearch_none
  apply stemSearch_none_of_no_decomposition
  rintro ⟨stem, code, ext, hd, _⟩
  exact h (underscore_mem_of_hasCommitCode hd)

/-! ## Lemmas on archive-name normalization -/

theorem str_underscore : str "_" = [95] := by decide

theorem str_zip : str ".zip" = [46, 122, 105, 112] := by decide

theorem hasSuffix_iff (s suffix : GoString) :
    hasSuffix s suffix = true ↔ ∃ u, s = u ++ suffix := by
  unfold hasSuffix
  simp only [ge_iff_le, Bool.and_eq_true, decide_eq_true_eq, beq_iff_eq]
  constructor
  · rintro ⟨_, hd⟩
    refine ⟨s.take (s.length - suffix.length), ?_⟩
    conv_lhs => rw [← List.take_append_drop (s.length - suffix.length) s]
    rw [hd]
  · rintro ⟨u, hu⟩
    subst hu
    simp

theorem trimSuffix_append (t suffix : GoString) : trimSuffix (t ++ suffix) suffix = t := by
  unfold trimSuffix
  rw [if_pos ((hasSuffix_iff _ _).2 ⟨t, rfl⟩)]
  simp

theorem trimSuffix_of_not_suffix (s suffix : GoString) (h : ¬ ∃ u, s = u ++ suffix) :
    trimSuffix s suffix = s := by
  unfold trimSuffix
  have : ¬ (hasSuffix s suffix = true) := fun hs => h ((hasSuffix_iff _ _).1 hs)
  rw [if_neg this]

theorem mem_of_take_one_eq {l : GoString} {c : Nat} (h : l.take 1 = [c]) : c ∈ l := by
  have : c ∈ l.take 1 := by
    rw [h]
    simp
  exact List.mem_of_mem_take this

theorem lastIndexFrom_of_not_mem (s : GoString) (h : 95 ∉ s) :
    ∀ i, lastIndexFrom s [95] i = -1 := by
  intro i
  induction i with
  | zero =>
    simp only [lastIndexFrom, List.length_singleton]
    rw [if_neg]
    intro h1
    exact h (mem_of_take_one_eq h1)
  | succ i ih =>
    simp only [lastIndexFrom, List.length_singleton]
    rw [if_neg, ih]
    intro h1
    exact h (List.mem_of_mem_drop (mem_of_take_one_eq h1))

theorem lastIndexFrom_of_last (a suf : GoString) (h : 95 ∉ suf) :
    ∀ m, m ≤ suf.length → lastIndexFrom (a ++ 95 :: suf) [95] (a.length + m) = a.length := by
  intro m
  induction m with
  | zero =>
    intro _
    cases a with
    | nil => simp [lastIndexFrom]
    | cons y ys =>
      simp only [List.length_cons, Nat.add_zero, lastIndexFrom, List.length_singleton]
      rw [if_pos]
      have : (y :: ys ++ 95 :: suf).drop (ys.length + 1) = 95 :: suf := by
        simp
      rw [this]
      simp
  | succ m ih =>
    intro hm
    have hidx : a.length + (m + 1) = (a.length + m) + 1 := by omega
    rw [hidx]
    simp only [lastIndexFrom, List.length_singleton]
    rw [if_neg, ih (by omega)]
    intro h1
    have hdrop : (a ++ 95 :: suf).drop (a.length + m + 1) = suf.drop m := by
      rw [List.drop_append_eq_append_drop]
      have h0 : List.drop (a.length + m + 1) a = [] := by
        apply List.drop_eq_nil_of_le
        omega
      have h2 : a.length + m + 1 - a.length = m + 1 := by omega
      rw [h0, h2]
      simp
    rw [hdrop] at h1
    exact h (List.mem_of_mem_drop (mem_of_take_one_eq h1))

theorem lastIndex_of_not_mem (s : GoString) (h : 95 ∉ s) : lastIndex s [95] = -1 := by
  unfold lastIndex
  split
  · rfl
  · exact lastIndexFrom_of_not_mem s h _

theorem lastIndex_of_last (a suf : GoString) (h : 95 ∉ suf) :
    lastIndex (a ++ 95 :: suf) [95] = a.length := by
  unfold lastIndex
  rw [if_neg (by simp)]
  have : (a ++ 95 :: suf).length - [95].length = a.length + suf.length := by
    simp
  rw [this]
  exact lastIndexFrom_of_last a suf h suf.length (le_refl _)

theorem last_occurrence {c : Nat} {l : GoString} (h : c ∈ l) :
    ∃ a suf, l = a ++ c :: suf ∧ c ∉ suf := by
  induction l with
  | nil => simp at h
  | cons x t ih =>
    by_cases ht : c ∈ t
    · obtain ⟨a, suf, hl, hs⟩ := ih ht
      exact ⟨x :: a, suf, by simp [hl], hs⟩
    · have hx : c = x := by
        simp at h
        rcases h with h | h
        · exact h
        · exact absurd h ht
      subst hx
      exact ⟨[], t, rfl, ht⟩

theorem extractZipBaseName_of_no_underscore (s : GoString)
    (h : 95 ∉ trimSuffix s (str ".zip")) :
    extractZipBaseName s = trimSuffix s (str ".zip") := by
  unfold extractZipBaseName
  simp only [str_underscore, lastIndex_of_not_mem _ h, if_true]

theorem extractZipBaseName_of_last_underscore (s a suf : GoString)
    (ht : trimSuffix s (str ".zip") = a ++ 95 :: suf) (h : 95 ∉ suf) :
    extractZipBaseName s = a := by
  unfold extractZipBaseName
  simp only [str_underscore, ht, lastIndex_of_last a suf h]
  rw [if_neg (by omega)]
  simp

/-! ## Lemmas on maps and on the comparison loops -/

theorem mapGet_eq_none_iff (m : FileMap) (k : GoString) :
    mapGet m k = none ↔ k ∉ mapKeys m := by
  induction m with
  | nil => simp [mapGet, mapKeys]
  | cons kv rest ih =>
    obtain ⟨k1, v1⟩ := kv
    simp only [mapGet, mapKeys, List.map_cons, List.mem_cons, not_or]
    by_cases h : k1 = k
    · simp [h]
    · rw [if_neg h, ih]
      constructor
      · intro hk
        exact ⟨fun hk1 => h hk1.symm, hk⟩
      · intro hk
        exact hk.2

theorem mem_of_mapGet_eq_some {m : FileMap} {k : GoString} {v : FileInfo}
    (h : mapGet m k = some v) : (k, v) ∈ m := by
  induction m with
  | nil => simp [mapGet] at h
  | cons kv rest ih =>
    obtain ⟨k1, v1⟩ := kv
    simp only [mapGet] at h
    by_cases hk : k1 = k
    · rw [if_pos hk] at h
      simp at h
      simp [hk, h]
    · rw [if_neg hk] at h
      exact List.mem_cons_of_mem _ (ih h)

theorem mapGet_eq_some_of_mem {m : FileMap} (hnd : (mapKeys m).Nodup) {k : GoString}
    {v : FileInfo} (h : (k, v) ∈ m) : mapGet m k = some v := by
  induction m with
  | nil => simp at h
  | cons kv rest ih =>
    obtain ⟨k1, v1⟩ := kv
    simp only [mapKeys, List.map_cons, List.nodup_cons] at hnd
    simp only [mapGet]
    simp only [List.mem_cons, Prod.mk.injEq] at h
    rcases h with ⟨hk, hv⟩ | h
    · simp [hk, hv]
    · have hne : k1 ≠ k := by
        intro hk
        apply hnd.1
        rw [hk]
        exact List.mem_map_of_mem Prod.fst h
      rw [if_neg hne]
      exact ih hnd.2 h

theorem mapGet_eq_some_iff {m : FileMap} (hnd : (mapKeys m).Nodup) (k : GoString)
    (v : FileInfo) : mapGet m k = some v ↔ (k, v) ∈ m :=
  ⟨mem_of_mapGet_eq_some, mapGet_eq_some_of_mem hnd⟩

theorem mem_mapKeys_iff (m : FileMap) (k : GoString) :
    k ∈ mapKeys m ↔ ∃ v, (k, v) ∈ m := by
  simp [mapKeys]

theorem foldl_compareFirstStep (files2 : FileMap) :
    ∀ (l : FileMap) (r : ComparisonResult),
      l.foldl (compareFirstStep files2) r =
        { OnlyInFirst := r.OnlyInFirst ++ (l.filter (isAbsent files2)).map Prod.fst
          OnlyInSecond := r.OnlyInSecond
          Different := r.Different ++ (l.filter (isDifferent files2)).map Prod.fst
          Identical := r.Identical ++ (l.filter (isIdentical files2)).map Prod.fst
          DiffDetails := r.DiffDetails ++ (l.filter (isDifferent files2)).map (diffRecord files2) } := by
  intro l
  induction l with
  | nil =>
    intro r
    simp
  | cons kv rest ih =>
    intro r
    rw [List.foldl_cons, ih]
    cases hg : mapGet files2 kv.1 with
    | none =>
      simp [compareFirstStep, isAbsent, isDifferent, isIdentical, hg, List.filter_cons]
    | some file2 =>
      by_cases hsame : kv.2.Hash = file2.Hash ∧ kv.2.Size = file2.Size
      · simp [compareFirstStep, isAbsent, isDifferent, isIdentical, hg, List.filter_cons, hsame]
      · simp [compareFirstStep, isAbsent, isDifferent, isIdentical, diffRecord, hg,
          List.filter_cons, hsame]

theorem foldl_compareSecondStep (files1 : FileMap) :
    ∀ (l : FileMap) (r : ComparisonResult),
      l.foldl (compareSecondStep files1) r =
        { r with OnlyInSecond := r.OnlyInSecond ++ (l.filter (isAbsent files1)).map Prod.fst } := by
  intro l
  induction l with
  | nil =>
    intro r
    simp
  | cons kv rest ih =>
    intro r
    rw [List.foldl_cons, ih]
    cases hg : mapGet files1 kv.1 with
    | none => simp [compareSecondStep, isAbsent, hg, List.filter_cons]
    | some file1 => simp [compareSecondStep, isAbsent, hg, List.filter_cons]

/-- The result of the two loops of `compareZipFiles`, field by field. -/
theorem compareFileMaps_eq (o1 o2 : RangeOrder) (files1 files2 : FileMap) :
    compareFileMaps o1 o2 files1 files2 =
      { OnlyInFirst := ((o1.visit files1).filter (isAbsent files2)).map Prod.fst
        OnlyInSecond := ((o2.visit files2).filter (isAbsent files1)).map Prod.fst
        Different := ((o1.visit files1).filter (isDifferent files2)).map Prod.fst
        Identical := ((o1.visit files1).filter (isIdentical files2)).map Prod.fst
        DiffDetails := ((o1.visit files1).filter (isDifferent files2)).map (diffRecord files2) } := by
  unfold compareFileMaps
  simp only [foldl_compareFirstStep, foldl_compareSecondStep, List.nil_append]

theorem mem_visit_iff (o : RangeOrder) (m : FileMap) (kv : GoString × FileInfo) :
    kv ∈ o.visit m ↔ kv ∈ m :=
  (o.perm m).mem_iff

theorem nodup_keys_visit (o : RangeOrder) {m : FileMap} (h : (mapKeys m).Nodup) :
    ((o.visit m).map Prod.fst).Nodup :=
  (((o.perm m).map Prod.fst).nodup_iff).2 h

theorem nodup_filter_keys (o : RangeOrder) {m : FileMap} (h : (mapKeys m).Nodup)
    (p : GoString × FileInfo → Bool) : (((o.visit m).filter p).map Prod.fst).Nodup :=
  List.Nodup.sublist (List.Sublist.map Prod.fst (List.filter_sublist _)) (nodup_keys_visit o h)

theorem mem_Identical_iff (o1 o2 : RangeOrder) {files1 files2 : FileMap}
    (h2 : (mapKeys files2).Nodup) (k : GoString) :
    k ∈ (compareFileMaps o1 o2 files1 files2).Identical ↔
      ∃ e1 e2, (k, e1) ∈ files1 ∧ (k, e2) ∈ files2 ∧ e1.Hash = e2.Hash ∧ e1.Size = e2.Size := by
  rw [compareFileMaps_eq]
  simp only [List.mem_map, List.mem_filter, mem_visit_iff, isIdentical]
  constructor
  · rintro ⟨⟨k1, e1⟩, ⟨hmem, hp⟩, hk⟩
    simp only at hk hp
    subst hk
    cases hg : mapGet files2 k1 with
    | none => simp [hg] at hp
    | some e2 =>
      rw [hg] at hp
      simp only [decide_eq_true_eq] at hp
      exact ⟨e1, e2, hmem, mem_of_mapGet_eq_some hg, hp.1, hp.2⟩
  · rintro ⟨e1, e2, hm1, hm2, hh, hs⟩
    refine ⟨(k, e1), ⟨hm1, ?_⟩, rfl⟩
    simp [mapGet_eq_some_of_mem h2 hm2, hh, hs]

theorem mem_Different_iff (o1 o2 : RangeOrder) {files1 files2 : FileMap}
    (h2 : (mapKeys files2).Nodup) (k : GoString) :
    k ∈ (compareFileMaps o1 o2 files1 files2).Different ↔
      ∃ e1 e2, (k, e1) ∈ files1 ∧ (k, e2) ∈ files2 ∧
        ¬ (e1.Hash = e2.Hash ∧ e1.Size = e2.Size) := by
  rw [compareFileMaps_eq]
  simp only [List.mem_map, List.mem_filter, mem_visit_iff, isDifferent]
  constructor
  · rintro ⟨⟨k1, e1⟩, ⟨hmem, hp⟩, hk⟩
    simp only at hk hp
    subst hk
    cases hg : mapGet files2 k1 with
    | none => simp [hg] at hp
    | some e2 =>
      rw [hg] at hp
      simp only [Bool.not_eq_true', decide_eq_false_iff_not] at hp
      exact ⟨e1, e2, hmem, mem_of_mapGet_eq_some hg, hp⟩
  · rintro ⟨e1, e2, hm1, hm2, hne⟩
    refine ⟨(k, e1), ⟨hm1, ?_⟩, rfl⟩
    simp only [mapGet_eq_some_of_mem h2 hm2, Bool.not_eq_true', decide_eq_false_iff_not]
    exact hne

theorem mem_OnlyInFirst_iff (o1 o2 : RangeOrder) (files1 files2 : FileMap) (k : GoString) :
    k ∈ (compareFileMaps o1 o2 files1 files2).OnlyInFirst ↔
      k ∈ mapKeys files1 ∧ k ∉ mapKeys files2 := by
  rw [compareFileMaps_eq]
  simp only [List.mem_map, List.mem_filter, mem_visit_iff, isAbsent, Option.isNone_iff_eq_none,
    mapGet_eq_none_iff, mem_mapKeys_iff]
  constructor
  · rintro ⟨⟨k1, e1⟩, ⟨hmem, hp⟩, hk⟩
    simp only at hk hp
    subst hk
    exact ⟨⟨e1, hmem⟩, hp⟩
  · rintro ⟨⟨e1, hmem⟩, hp⟩
    exact ⟨(k, e1), ⟨hmem, hp⟩, rfl⟩

theorem mem_OnlyInSecond_iff (o1 o2 : RangeOrder) (files1 files2 : FileMap) (k : GoString) :
    k ∈ (compareFileMaps o1 o2 files1 files2).OnlyInSecond ↔
      k ∈ mapKeys files2 ∧ k ∉ mapKeys files1 := by
  rw [compareFileMaps_eq]
  simp only [List.mem_map, List.mem_filter, mem_visit_iff, isAbsent, Option.isNone_iff_eq_none,
    mapGet_eq_none_iff, mem_mapKeys_iff]
  constructor
  · rintro ⟨⟨k1, e1⟩, ⟨hmem, hp⟩, hk⟩
    simp only at hk hp
    subst hk
    exact ⟨⟨e1, hmem⟩, hp⟩
  · rintro ⟨⟨e1, hmem⟩, hp⟩
    exact ⟨(k, e1), ⟨hmem, hp⟩, rfl⟩

theorem mapKeys_mapSet (m : FileMap) (k : GoString) (v : FileInfo) :
    mapKeys (mapSet m k v) = if k ∈ mapKeys m then mapKeys m else mapKeys m ++ [k] := by
  induction m with
  | nil => simp [mapSet, mapKeys]
  | cons kv rest ih =>
    obtain ⟨k1, v1⟩ := kv
    simp only [mapSet]
    by_cases h : k1 = k
    · subst h
      simp [mapKeys]
    · rw [if_neg h]
      have hne : ¬ k = k1 := fun hk => h hk.symm
      simp only [mapKeys, List.map_cons, List.mem_cons, hne, false_or] at ih ⊢
      rw [ih]
      split <;> simp

theorem nodup_mapSet {m : FileMap} (h : (mapKeys m).Nodup) (k : GoString) (v : FileInfo) :
    (mapKeys (mapSet m k v)).Nodup := by
  rw [mapKeys_mapSet]
  split
  · exact h
  · rename_i hk
    rw [List.nodup_append]
    refine ⟨h, by simp, ?_⟩
    intro a ha hb
    simp at hb
    subst hb
    exact hk ha

theorem readZipStep_nodup {sha : GoString → GoString} {files files1 : FileMap} {file : ZipFile}
    (hs : readZipStep sha files file = .ok files1) (h : (mapKeys files).Nodup) :
    (mapKeys files1).Nodup := by
  unfold readZipStep at hs
  split at hs
  · cases hs
    exact h
  · split at hs
    · cases hs
    · cases hs
    · simp only at hs
      split at hs
      · split at hs
        · cases hs
          exact nodup_mapSet h _ _
        · cases hs
          exact h
      · cases hs
        exact nodup_mapSet h _ _

theorem readZipLoop_nodup {sha : GoString → GoString} :
    ∀ (reader : List ZipFile) {files files1 : FileMap},
      readZipLoop sha files reader = .ok files1 → (mapKeys files).Nodup →
        (mapKeys files1).Nodup := by
  intro reader
  induction reader with
  | nil =>
    intro files files1 hs h
    simp only [readZipLoop] at hs
    cases hs
    exact h
  | cons f rest ih =>
    intro files files1 hs h
    simp only [readZipLoop] at hs
    cases hstep : readZipStep sha files f with
    | error e =>
      rw [hstep] at hs
      cases hs
    | ok files2 =>
      rw [hstep] at hs
      exact ih hs (readZipStep_nodup hstep h)

/-- The collection built by `readZipContents` has distinct keys. -/
theorem readZipContents_nodup {sha : GoString → GoString} {zip : ZipArchive} {files : FileMap}
    (hs : readZipContents sha zip = .ok files) : (mapKeys files).Nodup := by
  unfold readZipContents at hs
  cases zip with
  | none => cases hs
  | some reader => exact readZipLoop_nodup reader hs (by simp [mapKeys])

theorem compareZipFiles_ok {sha : GoString → GoString} (o1 o2 : RangeOrder)
    {zip1 zip2 : ZipArchive} {files1 files2 : FileMap}
    (h1 : readZipContents sha zip1 = .ok files1) (h2 : readZipContents sha zip2 = .ok files2) :
    compareZipFiles sha o1 o2 zip1 zip2 = .ok (compareFileMaps o1 o2 files1 files2) := by
  unfold compareZipFiles
  rw [h1, h2]

theorem mem_fileEntries_iff (reader : List ZipFile) (f : ZipFile) :
    f ∈ fileEntries reader ↔ f ∈ reader ∧ f.isDir = false := by
  simp [fileEntries]

theorem mapSet_of_not_mem {m : FileMap} {k : GoString} (h : k ∉ mapKeys m) (v : FileInfo) :
    mapSet m k v = m ++ [(k, v)] := by
  induction m with
  | nil => simp [mapSet]
  | cons kv rest ih =>
    obtain ⟨k1, v1⟩ := kv
    simp only [mapKeys, List.map_cons, List.mem_cons, not_or] at h
    simp only [mapSet]
    rw [if_neg (fun hk => h.1 hk.symm)]
    rw [ih h.2]
    simp

theorem readZipStep_fresh {sha : GoString → GoString} {files : FileMap} {file : ZipFile}
    {c : GoString} (hdir : file.isDir = false) (hc : file.Data = .content c)
    (hk : entryKey file ∉ mapKeys files) :
    readZipStep sha files file = .ok (files ++ [(entryKey file, entryInfo sha file)]) := by
  have hget : mapGet files (extractBaseName (filepathBase file.Name)) = none :=
    (mapGet_eq_none_iff files _).2 hk
  unfold readZipStep
  simp only [hdir, hc, hget, Bool.false_eq_true, if_false]
  have hk2 : extractBaseName (filepathBase file.Name) ∉ mapKeys files := hk
  rw [mapSet_of_not_mem hk2]
  simp [entryInfo, entryContent, hc, entryKey]

/-- When no two non-directory entries share a key and all can be read, the
collection holds one entry per non-directory entry, in archive order. -/
theorem readZipLoop_of_distinct (sha : GoString → GoString) :
    ∀ (reader : List ZipFile) (files : FileMap), Readable reader →
      (mapKeys files ++ (fileEntries reader).map entryKey).Nodup →
      readZipLoop sha files reader =
        .ok (files ++ (fileEntries reader).map (fun f => (entryKey f, entryInfo sha f))) := by
  intro reader
  induction reader with
  | nil =>
    intro files _ _
    simp [readZipLoop, fileEntries]
  | cons f rest ih =>
    intro files hr hnd
    have hr2 : Readable rest := fun g hg hd => hr g (List.mem_cons_of_mem _ hg) hd
    simp only [readZipLoop]
    cases hdir : f.isDir with
    | true =>
      have hstep : readZipStep sha files f = .ok files := by
        unfold readZipStep
        simp [hdir]
      have hfe : fileEntries (f :: rest) = fileEntries rest := by
        simp [fileEntries, hdir]
      rw [hstep, hfe]
      rw [hfe] at hnd
      exact ih files hr2 hnd
    | false =>
      obtain ⟨c, hc⟩ := hr f (by simp) hdir
      have hfe : fileEntries (f :: rest) = f :: fileEntries rest := by
        simp [fileEntries, hdir]
      rw [hfe] at hnd ⊢
      simp only [List.map_cons] at hnd ⊢
      have hk : entryKey f ∉ mapKeys files := by
        intro hmem
        rw [List.nodup_append] at hnd
        exact hnd.2.2 hmem (by simp)
      rw [readZipStep_fresh hdir hc hk]
      simp only
      have hnd2 : (mapKeys (files ++ [(entryKey f, entryInfo sha f)]) ++
          (fileEntries rest).map entryKey).Nodup := by
        simpa [mapKeys] using hnd
      rw [ih _ hr2 hnd2]
      simp

theorem readZipContents_of_distinct (sha : GoString → GoString) {reader : List ZipFile}
    (hr : Readable reader) (hnd : ((fileEntries reader).map entryKey).Nodup) :
    readZipContents sha (some reader) =
      .ok ((fileEntries reader).map (fun f => (entryKey f, entryInfo sha f))) := by
  unfold readZipContents
  simp only
  rw [readZipLoop_of_distinct sha reader [] hr (by simpa [mapKeys] using hnd)]
  simp

/-! ## Comparison -/

/-- C1: when both archives are read, the four name lists of the result of
`compareZipFiles` partition the union of the keys of the two collections: the
concatenation of the four lists has no repetition (no name twice in a list, no
name in two lists), and a name is a key of either collection exactly when it
is in one of the lists. -/
theorem compareZipFiles_partition (sha : GoString → GoString) (o1 o2 : RangeOrder)
    (zip1 zip2 : ZipArchive) (files1 files2 : FileMap)
    (h1 : readZipContents sha zip1 = .ok files1) (h2 : readZipContents sha zip2 = .ok files2) :
    ∃ r, compareZipFiles sha o1 o2 zip1 zip2 = .ok r ∧
      (r.Identical ++ r.Different ++ r.OnlyInFirst ++ r.OnlyInSecond).Nodup ∧
      ∀ k, (k ∈ mapKeys files1 ∨ k ∈ mapKeys files2) ↔
        k ∈ r.Identical ++ r.Different ++ r.OnlyInFirst ++ r.OnlyInSecond := by
  have hn1 := readZipContents_nodup h1
  have hn2 := readZipContents_nodup h2
  refine ⟨compareFileMaps o1 o2 files1 files2, compareZipFiles_ok o1 o2 h1 h2, ?_, ?_⟩
  · have hI : (compareFileMaps o1 o2 files1 files2).Identical.Nodup := by
      rw [compareFileMaps_eq]
      exact nodup_filter_keys o1 hn1 _
    have hD : (compareFileMaps o1 o2 files1 files2).Different.Nodup := by
      rw [compareFileMaps_eq]
      exact nodup_filter_keys o1 hn1 _
    have hF : (compareFileMaps o1 o2 files1 files2).OnlyInFirst.Nodup := by
      rw [compareFileMaps_eq]
      exact nodup_filter_keys o1 hn1 _
    have hS : (compareFileMaps o1 o2 files1 files2).OnlyInSecond.Nodup := by
      rw [compareFileMaps_eq]
      exact nodup_filter_keys o2 hn2 _
    rw [List.nodup_append, List.nodup_append, List.nodup_append]
    refine ⟨⟨⟨hI, hD, ?_⟩, hF, ?_⟩, hS, ?_⟩
    · intro k hkI hkD
      obtain ⟨e1, e2, hm1, hm2, hh, hs⟩ := (mem_Identical_iff o1 o2 hn2 k).1 hkI
      obtain ⟨d1, d2, hd1, hd2, hne⟩ := (mem_Different_iff o1 o2 hn2 k).1 hkD
      have he1 : e1 = d1 := by
        have := mapGet_eq_some_of_mem hn1 hm1
        rw [mapGet_eq_some_of_mem hn1 hd1] at this
        exact (Option.some.inj this).symm
      have he2 : e2 = d2 := by
        have := mapGet_eq_some_of_mem hn2 hm2
        rw [mapGet_eq_some_of_mem hn2 hd2] at this
        exact (Option.some.inj this).symm
      subst he1 he2
      exact hne ⟨hh, hs⟩
    · intro k hk hkF
      have hnot := ((mem_OnlyInFirst_iff o1 o2 files1 files2 k).1 hkF).2
      rw [List.mem_append] at hk
      rcases hk with hk | hk
      · obtain ⟨_, e2, _, hm2, _⟩ := (mem_Identical_iff o1 o2 hn2 k).1 hk
        exact hnot ((mem_mapKeys_iff files2 k).2 ⟨e2, hm2⟩)
      · obtain ⟨_, e2, _, hm2, _⟩ := (mem_Different_iff o1 o2 hn2 k).1 hk
        exact hnot ((mem_mapKeys_iff files2 k).2 ⟨e2, hm2⟩)
    · intro k hk hkS
      have hnot := ((mem_OnlyInSecond_iff o1 o2 files1 files2 k).1 hkS).2
      rw [List.mem_append, List.mem_append] at hk
      rcases hk with (hk | hk) | hk
      · obtain ⟨e1, _, hm1, _⟩ := (mem_Identical_iff o1 o2 hn2 k).1 hk
        exact hnot ((mem_mapKeys_iff files1 k).2 ⟨e1, hm1⟩)
      · obtain ⟨e1, _, hm1, _⟩ := (mem_Different_iff o1 o2 hn2 k).1 hk
        exact hnot ((mem_mapKeys_iff files1 k).2 ⟨e1, hm1⟩)
      · exact hnot ((mem_OnlyInFirst_iff o1 o2 files1 files2 k).1 hk).1
  · intro k
    simp only [List.mem_append, mem_Identical_iff o1 o2 hn2, mem_Different_iff o1 o2 hn2,
      mem_OnlyInFirst_iff, mem_OnlyInSecond_iff]
    constructor
    · rintro (hk | hk)
      · by_cases hk2 : k ∈ mapKeys files2
        · obtain ⟨e1, hm1⟩ := (mem_mapKeys_iff files1 k).1 hk
          obtain ⟨e2, hm2⟩ := (mem_mapKeys_iff files2 k).1 hk2
          by_cases hsame : e1.Hash = e2.Hash ∧ e1.Size = e2.Size
          · exact Or.inl (Or.inl (Or.inl ⟨e1, e2, hm1, hm2, hsame.1, hsame.2⟩))
          · exact Or.inl (Or.inl (Or.inr ⟨e1, e2, hm1, hm2, hsame⟩))
        · exact Or.inl (Or.inr ⟨hk, hk2⟩)
      · by_cases hk1 : k ∈ mapKeys files1
        · obtain ⟨e1, hm1⟩ := (mem_mapKeys_iff files1 k).1 hk1
          obtain ⟨e2, hm2⟩ := (mem_mapKeys_iff files2 k).1 hk
          by_cases hsame : e1.Hash = e2.Hash ∧ e1.Size = e2.Size
          · exact Or.inl (Or.inl (Or.inl ⟨e1, e2, hm1, hm2, hsame.1, hsame.2⟩))
          · exact Or.inl (Or.inl (Or.inr ⟨e1, e2, hm1, hm2, hsame⟩))
        · exact Or.inr ⟨hk, hk1⟩
    · rintro (((⟨e1, _, hm1, _⟩ | ⟨e1, _, hm1, _⟩) | ⟨hk, _⟩) | ⟨hk, _⟩)
      · exact Or.inl ((mem_mapKeys_iff files1 k).2 ⟨e1, hm1⟩)
      · exact Or.inl ((mem_mapKeys_iff files1 k).2 ⟨e1, hm1⟩)
      · exact Or.inl hk
      · exact Or.inr hk

/-- Witness of C1 at the two archives of `TestCompareDifferentZips`. -/
theorem compareZipFiles_partition_witness :
    ∃ r, compareZipFiles toyDigest insertionOrder reverseOrder
        (zipOf [("common.txt", "same content"), ("different.txt", "content in zip1"),
          ("onlyinfirst.txt", "only in first")])
        (zipOf [("common.txt", "same content"), ("different.txt", "content in zip2"),
          ("onlyinsecond.txt", "only in second")]) = .ok r ∧
      (r.Identical ++ r.Different ++ r.OnlyInFirst ++ r.OnlyInSecond).Nodup ∧
      ∀ k, (k ∈ [str "common.txt", str "different.txt", str "onlyinfirst.txt"] ∨
          k ∈ [str "common.txt", str "different.txt", str "onlyinsecond.txt"]) ↔
        k ∈ r.Identical ++ r.Different ++ r.OnlyInFirst ++ r.OnlyInSecond :=
  compareZipFiles_partition toyDigest insertionOrder reverseOrder _ _
    [(str "common.txt", ⟨str "common.txt", str "common.txt", 12, str "same content",
        str "same content", false⟩),
      (str "different.txt", ⟨str "different.txt", str "different.txt", 15,
        str "content in zip1", str "content in zip1", false⟩),
      (str "onlyinfirst.txt", ⟨str "onlyinfirst.txt", str "onlyinfirst.txt", 13,
        str "only in first", str "only in first", false⟩)]
    [(str "common.txt", ⟨str "common.txt", str "common.txt", 12, str "same content",
        str "same content", false⟩),
      (str "different.txt", ⟨str "different.txt", str "different.txt", 15,
        str "content in zip2", str "content in zip2", false⟩),
      (str "onlyinsecond.txt", ⟨str "onlyinsecond.txt", str "onlyinsecond.txt", 14,
        str "only in second", str "only in second", false⟩)]
    rfl rfl

/-- C2: for two entry collections (maps, whose keys are distinct) and every name
`k`, the loops of `compareZipFiles` put `k` in Identical iff `k` is a key of
both and the two entries agree in Hash and Size, in Different iff `k` is a key
of both and Hash or Size differ, in OnlyInFirst iff `k` is a key of the first
only, in OnlyInSecond iff `k` is a key of the second only; and these loops are
what `compareZipFiles` returns for two archives read into these collections. -/
theorem compareZipFiles_classifies (o1 o2 : RangeOrder) (files1 files2 : FileMap)
    (hn2 : (mapKeys files2).Nodup) (k : GoString) :
    (k ∈ (compareFileMaps o1 o2 files1 files2).Identical ↔
        ∃ e1 e2, (k, e1) ∈ files1 ∧ (k, e2) ∈ files2 ∧ e1.Hash = e2.Hash ∧ e1.Size = e2.Size) ∧
      (k ∈ (compareFileMaps o1 o2 files1 files2).Different ↔
        ∃ e1 e2, (k, e1) ∈ files1 ∧ (k, e2) ∈ files2 ∧
          ¬ (e1.Hash = e2.Hash ∧ e1.Size = e2.Size)) ∧
      (k ∈ (compareFileMaps o1 o2 files1 files2).OnlyInFirst ↔
        k ∈ mapKeys files1 ∧ k ∉ mapKeys files2) ∧
      (k ∈ (compareFileMaps o1 o2 files1 files2).OnlyInSecond ↔
        k ∈ mapKeys files2 ∧ k ∉ mapKeys files1) ∧
      (∀ (sha : GoString → GoString) (zip1 zip2 : ZipArchive),
        readZipContents sha zip1 = .ok files1 → readZipContents sha zip2 = .ok files2 →
          compareZipFiles sha o1 o2 zip1 zip2 = .ok (compareFileMaps o1 o2 files1 files2)) :=
  ⟨mem_Identical_iff o1 o2 hn2 k, mem_Different_iff o1 o2 hn2 k,
    mem_OnlyInFirst_iff o1 o2 files1 files2 k, mem_OnlyInSecond_iff o1 o2 files1 files2 k,
    fun _ _ _ h1 h2 => compareZipFiles_ok o1 o2 h1 h2⟩

/-- Witness of C2 at two archives of one entry each, `different.txt`, with
different contents: the name is reported as different. -/
theorem compareZipFiles_classifies_witness :
    str "different.txt" ∈ (compareFileMaps reverseOrder insertionOrder
        [(str "different.txt", ⟨str "different.txt", str "different.txt", 15,
          str "content in zip1", str "content in zip1", false⟩)]
        [(str "different.txt", ⟨str "different.txt", str "different.txt", 15,
          str "content in zip2", str "content in zip2", false⟩)]).Different ∧
      compareZipFiles toyDigest reverseOrder insertionOrder
          (zipOf [("different.txt", "content in zip1")])
          (zipOf [("different.txt", "content in zip2")]) =
        .ok (compareFileMaps reverseOrder insertionOrder
          [(str "different.txt", ⟨str "different.txt", str "different.txt", 15,
            str "content in zip1", str "content in zip1", false⟩)]
          [(str "different.txt", ⟨str "different.txt", str "different.txt", 15,
            str "content in zip2", str "content in zip2", false⟩)]) :=
  have h := compareZipFiles_classifies reverseOrder insertionOrder
    [(str "different.txt", ⟨str "different.txt", str "different.txt", 15,
      str "content in zip1", str "content in zip1", false⟩)]
    [(str "different.txt", ⟨str "different.txt", str "different.txt", 15,
      str "content in zip2", str "content in zip2", false⟩)]
    (by decide) (str "different.txt")
  ⟨h.2.1.2 ⟨_, _, List.mem_singleton.2 rfl, List.mem_singleton.2 rfl, by decide⟩,
    h.2.2.2.2 toyDigest _ _ rfl rfl⟩

/-- C3: an archive compared with an exact copy of itself (the same entries in
the same order) has empty Different, OnlyInFirst, OnlyInSecond and DiffDetails
lists, and Identical holds exactly the keys of its entry collection, each
once. -/
theorem compareZipFiles_self (sha : GoString → GoString) (o1 o2 : RangeOrder)
    (zip : ZipArchive) (files : FileMap) (h : readZipContents sha zip = .ok files) :
    ∃ r, compareZipFiles sha o1 o2 zip zip = .ok r ∧
      r.Different = [] ∧ r.OnlyInFirst = [] ∧ r.OnlyInSecond = [] ∧ r.DiffDetails = [] ∧
      r.Identical.Perm (mapKeys files) := by
  have hn := readZipContents_nodup h
  refine ⟨compareFileMaps o1 o2 files files, compareZipFiles_ok o1 o2 h h, ?_⟩
  have hget : ∀ (o : RangeOrder) (kv : GoString × FileInfo), kv ∈ o.visit files →
      mapGet files kv.1 = some kv.2 := by
    intro o kv hkv
    exact mapGet_eq_some_of_mem hn ((mem_visit_iff o files kv).1 hkv)
  have hD : (o1.visit files).filter (isDifferent files) = [] := by
    rw [List.filter_eq_nil_iff]
    intro kv hkv
    simp [isDifferent, hget o1 kv hkv]
  have hF : ∀ o : RangeOrder, (o.visit files).filter (isAbsent files) = [] := by
    intro o
    rw [List.filter_eq_nil_iff]
    intro kv hkv
    simp [isAbsent, hget o kv hkv]
  have hI : (o1.visit files).filter (isIdentical files) = o1.visit files := by
    rw [List.filter_eq_self]
    intro kv hkv
    simp [isIdentical, hget o1 kv hkv]
  rw [compareFileMaps_eq]
  simp only [hD, hF, hI, List.map_nil, true_and]
  exact (o1.perm files).map Prod.fst

/-- Witness of C3 at the archive of `TestCompareIdenticalZips`. -/
theorem compareZipFiles_self_witness :
    ∃ r, compareZipFiles toyDigest reverseOrder insertionOrder
        (zipOf [("file1.txt", "content1"), ("file2_abc123.js", "content2"),
          ("file3.png", "binary content")])
        (zipOf [("file1.txt", "content1"), ("file2_abc123.js", "content2"),
          ("file3.png", "binary content")]) = .ok r ∧
      r.Different = [] ∧ r.OnlyInFirst = [] ∧ r.OnlyInSecond = [] ∧ r.DiffDetails = [] ∧
      r.Identical.Perm [str "file1.txt", str "file2.js", str "file3.png"] :=
  compareZipFiles_self toyDigest reverseOrder insertionOrder _
    [(str "file1.txt", ⟨str "file1.txt", str "file1.txt", 8, str "content1", str "content1",
        false⟩),
      (str "file2.js", ⟨str "file2_abc123.js", str "file2.js", 8, str "content2",
        str "content2", false⟩),
      (str "file3.png", ⟨str "file3.png", str "file3.png", 14, str "binary content",
        str "binary content", false⟩)]
    rfl

/-- C4: two readable archives, in each of which no two non-directory entries
share a normalized base name, and which hold the same set of (normalized base
name, content bytes) pairs, compare as fully identical: Different, OnlyInFirst
and OnlyInSecond are empty and Identical holds every normalized name once,
whatever the commit codes in the raw names. -/
theorem compareZipFiles_commit_codes (sha : GoString → GoString) (o1 o2 : RangeOrder)
    (reader1 reader2 : List ZipFile) (hr1 : Readable reader1) (hr2 : Readable reader2)
    (hk1 : ((fileEntries reader1).map entryKey).Nodup)
    (hk2 : ((fileEntries reader2).map entryKey).Nodup)
    (hsame : ∀ k c, (∃ f ∈ fileEntries reader1, entryKey f = k ∧ f.Data = .content c) ↔
      (∃ g ∈ fileEntries reader2, entryKey g = k ∧ g.Data = .content c)) :
    ∃ r, compareZipFiles sha o1 o2 (some reader1) (some reader2) = .ok r ∧
      r.Different = [] ∧ r.OnlyInFirst = [] ∧ r.OnlyInSecond = [] ∧
      r.Identical.Perm ((fileEntries reader1).map entryKey) := by
  have h1 := readZipContents_of_distinct sha hr1 hk1
  have h2 := readZipContents_of_distinct sha hr2 hk2
  have hn1 := readZipContents_nodup h1
  have hn2 := readZipContents_nodup h2
  refine ⟨_, compareZipFiles_ok o1 o2 h1 h2, ?_⟩
  -- every entry of one collection has a partner with the same bytes in the other
  have partner : ∀ (ra rb : List ZipFile), Readable ra →
      (∀ k c, (∃ f ∈ fileEntries ra, entryKey f = k ∧ f.Data = .content c) →
        (∃ g ∈ fileEntries rb, entryKey g = k ∧ g.Data = .content c)) →
      ((fileEntries rb).map entryKey).Nodup →
      ∀ kv ∈ (fileEntries ra).map (fun f => (entryKey f, entryInfo sha f)),
        ∃ e, mapGet ((fileEntries rb).map (fun f => (entryKey f, entryInfo sha f))) kv.1 = some e ∧
          kv.2.Hash = e.Hash ∧ kv.2.Size = e.Size := by
    intro ra rb hra hab hnb kv hkv
    obtain ⟨f, hf, hfkv⟩ := List.mem_map.1 hkv
    subst hfkv
    obtain ⟨hfr, hfd⟩ := (mem_fileEntries_iff ra f).1 hf
    obtain ⟨c, hc⟩ := hra f hfr hfd
    obtain ⟨g, hg, hgk, hgc⟩ := hab (entryKey f) c ⟨f, hf, rfl, hc⟩
    refine ⟨entryInfo sha g, ?_, ?_, ?_⟩
    · apply mapGet_eq_some_of_mem
      · simpa [mapKeys] using hnb
      · simp only
        rw [← hgk]
        exact List.mem_map.2 ⟨g, hg, rfl⟩
    · simp [entryInfo, entryContent, hc, hgc]
    · simp [entryInfo, entryContent, hc, hgc]
  have p12 := partner reader1 reader2 hr1 (fun k c h => (hsame k c).1 h) hk2
  have p21 := partner reader2 reader1 hr2 (fun k c h => (hsame k c).2 h) hk1
  have hD : (o1.visit ((fileEntries reader1).map (fun f => (entryKey f, entryInfo sha f)))).filter
      (isDifferent ((fileEntries reader2).map (fun f => (entryKey f, entryInfo sha f)))) = [] := by
    rw [List.filter_eq_nil_iff]
    intro kv hkv
    obtain ⟨e, hg, hh, hs⟩ := p12 kv ((mem_visit_iff o1 _ kv).1 hkv)
    simp [isDifferent, hg, hh, hs]
  have hF : (o1.visit ((fileEntries reader1).map (fun f => (entryKey f, entryInfo sha f)))).filter
      (isAbsent ((fileEntries reader2).map (fun f => (entryKey f, entryInfo sha f)))) = [] := by
    rw [List.filter_eq_nil_iff]
    intro kv hkv
    obtain ⟨e, hg, _⟩ := p12 kv ((mem_visit_iff o1 _ kv).1 hkv)
    simp [isAbsent, hg]
  have hS : (o2.visit ((fileEntries reader2).map (fun f => (entryKey f, entryInfo sha f)))).filter
      (isAbsent ((fileEntries reader1).map (fun f => (entryKey f, entryInfo sha f)))) = [] := by
    rw [List.filter_eq_nil_iff]
    intro kv hkv
    obtain ⟨e, hg, _⟩ := p21 kv ((mem_visit_iff o2 _ kv).1 hkv)
    simp [isAbsent, hg]
  have hI : (o1.visit ((fileEntries reader1).map (fun f => (entryKey f, entryInfo sha f)))).filter
      (isIdentical ((fileEntries reader2).map (fun f => (entryKey f, entryInfo sha f)))) =
      o1.visit ((fileEntries reader1).map (fun f => (entryKey f, entryInfo sha f))) := by
    rw [List.filter_eq_self]
    intro kv hkv
    obtain ⟨e, hg, hh, hs⟩ := p12 kv ((mem_visit_iff o1 _ kv).1 hkv)
    simp [isIdentical, hg, hh, hs]
  rw [compareFileMaps_eq]
  simp only [hD, hF, hS, hI, List.map_nil, true_and]
  have hperm := (o1.perm ((fileEntries reader1).map
    (fun f => (entryKey f, entryInfo sha f)))).map Prod.fst
  simpa [Function.comp_def] using hperm

/-- Witness of C4 at the two archives of `TestCompareZipsWithCommitCodes`,
the second written in the other order. -/
theorem compareZipFiles_commit_codes_witness :
    ∃ r, compareZipFiles toyDigest insertionOrder reverseOrder
        (some commitCodesZip1) (some commitCodesZip2) = .ok r ∧
      r.Different = [] ∧ r.OnlyInFirst = [] ∧ r.OnlyInSecond = [] ∧
      r.Identical.Perm [str "file.txt", str "script.js"] :=
  have hfe1 : fileEntries commitCodesZip1 = commitCodesZip1 := by decide
  have hfe2 : fileEntries commitCodesZip2 = commitCodesZip2 := by decide
  compareZipFiles_commit_codes toyDigest insertionOrder reverseOrder
    commitCodesZip1 commitCodesZip2
    (by
      intro f hf _
      simp only [commitCodesZip1, List.mem_cons, List.mem_singleton, List.not_mem_nil,
        or_false] at hf
      rcases hf with rfl | rfl <;> exact ⟨_, rfl⟩)
    (by
      intro f hf _
      simp only [commitCodesZip2, List.mem_cons, List.mem_singleton, List.not_mem_nil,
        or_false] at hf
      rcases hf with rfl | rfl <;> exact ⟨_, rfl⟩)
    (by decide) (by decide)
    (by
      intro k c
      rw [hfe1, hfe2]
      constructor
      · rintro ⟨f, hf, hk, hc⟩
        simp only [commitCodesZip1, List.mem_cons, List.mem_singleton, List.not_mem_nil,
          or_false] at hf
        rcases hf with rfl | rfl
        · exact ⟨⟨str "file_xyz789.txt", false, .content (str "same content")⟩, by decide,
            by rw [← hk]; decide, hc⟩
        · exact ⟨⟨str "script_uvw012.js", false, .content (str "same script")⟩, by decide,
            by rw [← hk]; decide, hc⟩
      · rintro ⟨g, hg, hk, hc⟩
        simp only [commitCodesZip2, List.mem_cons, List.mem_singleton, List.not_mem_nil,
          or_false] at hg
        rcases hg with rfl | rfl
        · exact ⟨⟨str "script_def456.js", false, .content (str "same script")⟩, by decide,
            by rw [← hk]; decide, hc⟩
        · exact ⟨⟨str "file_abc123.txt", false, .content (str "same content")⟩, by decide,
            by rw [← hk]; decide, hc⟩)

/-! ## Entry base-name normalization -/

/-- C5 (as stated, refuted): normalizing `report_abc123_def456.txt` gives
`report_abc123.txt`, and normalizing that again gives `report.txt`, so
normalizing twice differs from normalizing once. -/
theorem extractBaseName_not_idempotent :
    extractBaseName (str "report_abc123_def456.txt") = str "report_abc123.txt" ∧
      extractBaseName (extractBaseName (str "report_abc123_def456.txt")) = str "report.txt" ∧
      extractBaseName (extractBaseName (str "report_abc123_def456.txt")) ≠
        extractBaseName (str "report_abc123_def456.txt") := by
  decide

/-- C5 (amended): normalizing twice equals normalizing once exactly when the
once-normalized name is not itself of the form stem + "_" + code + ext with a
non-empty stem free of line feeds; in particular it does for every name with
at most one underscore. -/
theorem extractBaseName_idempotent_iff (n : GoString) :
    (extractBaseName (extractBaseName n) = extractBaseName n ↔
        ¬ ∃ stem code ext, HasCommitCode (extractBaseName n) stem code ext ∧ 10 ∉ stem) ∧
      (n.count 95 ≤ 1 → extractBaseName (extractBaseName n) = extractBaseName n) := by
  constructor
  · constructor
    · intro h hex
      cases hs : stemSearch (extractBaseName n) with
      | none =>
        obtain ⟨stem, code, ext, hd, hnl⟩ := hex
        exact hnl (stemSearch_none hs stem code ext hd)
      | some p =>
        obtain ⟨stem, ext⟩ := p
        obtain ⟨⟨code, hd⟩, _⟩ := stemSearch_some hs
        rw [extractBaseName_of_stemSearch_some hs] at h
        have hlen := congrArg List.length h
        rw [hd.1] at hlen
        simp at hlen
        omega
    · intro h
      exact extractBaseName_of_stemSearch_none (stemSearch_none_of_no_decomposition h)
  · intro hcount
    cases hs : stemSearch n with
    | none => rw [extractBaseName_of_stemSearch_none hs, extractBaseName_of_stemSearch_none hs]
    | some p =>
      obtain ⟨stem, ext⟩ := p
      obtain ⟨⟨code, hd⟩, _⟩ := stemSearch_some hs
      rw [extractBaseName_of_stemSearch_some hs]
      apply extractBaseName_of_no_underscore
      rw [hd.1] at hcount
      simp only [List.count_append, List.count_cons_self] at hcount
      have h1 : List.count 95 stem = 0 := by omega
      have h2 : List.count 95 ext = 0 := by omega
      rw [List.count_eq_zero] at h1 h2
      simp [h1, h2]

/-- Witness of C5 at `file_abc123.txt`, a name with one underscore. -/
theorem extractBaseName_idempotent_iff_witness :
    (str "file_abc123.txt").count 95 ≤ 1 ∧
      extractBaseName (extractBaseName (str "file_abc123.txt")) =
        extractBaseName (str "file_abc123.txt") :=
  ⟨by decide, (extractBaseName_idempotent_iff (str "file_abc123.txt")).2 (by decide)⟩

/-- C7 (as stated, refuted): `a_bbbbbb.x_cccccc` is stem `a`, code `bbbbbb`,
extension `.x_cccccc`, yet the result is `a_bbbbbb.x` and not `a.x_cccccc`
(the extension ends in a commit code of its own, which is the one stripped);
and `a\nb_abc123.txt` is stem `a\nb`, code `abc123`, extension `.txt`, yet it
is returned unchanged (the stem holds a line feed). -/
theorem extractBaseName_strips_counterexample :
    (HasCommitCode (str "a_bbbbbb.x_cccccc") (str "a") (str "bbbbbb") (str ".x_cccccc") ∧
        extractBaseName (str "a_bbbbbb.x_cccccc") = str "a_bbbbbb.x" ∧
        extractBaseName (str "a_bbbbbb.x_cccccc") ≠ str "a" ++ str ".x_cccccc") ∧
      (HasCommitCode (str "a\nb_abc123.txt") (str "a\nb") (str "abc123") (str ".txt") ∧
        extractBaseName (str "a\nb_abc123.txt") = str "a\nb_abc123.txt" ∧
        extractBaseName (str "a\nb_abc123.txt") ≠ str "a\nb" ++ str ".txt") := by
  refine ⟨⟨⟨by decide, by decide, ⟨by decide, by decide⟩, Or.inr ⟨str "x_cccccc", by decide, by decide⟩⟩,
    by decide, by decide⟩, ⟨⟨by decide, by decide, ⟨by decide, by decide⟩,
      Or.inr ⟨str "txt", by decide, by decide⟩⟩, by decide, by decide⟩⟩

/-- C7 (amended): for every name stem + "_" + code + ext where the stem is
non-empty and has no line feed, the code is at least 6 characters of
`[a-zA-Z0-9]`, and ext is empty or a dot followed by dot-free characters and
does not itself end in "_" followed by at least 6 alphanumerics,
`extractBaseName` returns stem + ext; `file_abc123.txt` gives `file.txt` and
`document_a1b2c3` gives `document`. -/
theorem extractBaseName_strips :
    (∀ stem code ext : GoString, stem ≠ [] → 10 ∉ stem → IsCode code → IsExt ext →
        (¬ ∃ x code2, ext = x ++ 95 :: code2 ∧ IsCode code2) →
        extractBaseName (stem ++ 95 :: (code ++ ext)) = stem ++ ext) ∧
      extractBaseName (str "file_abc123.txt") = str "file.txt" ∧
      extractBaseName (str "document_a1b2c3") = str "document" := by
  refine ⟨?_, by decide, by decide⟩
  intro stem code ext hne hnl hcode hext hamb
  exact extractBaseName_of_stemSearch_some
    (stemSearch_of_decomposition ⟨rfl, hne, hcode, hext⟩ hnl hamb)

/-- Witness of C7 at stem `script`, code `def456`, extension `.js`. -/
theorem extractBaseName_strips_witness :
    extractBaseName (str "script" ++ 95 :: (str "def456" ++ str ".js")) =
      str "script" ++ str ".js" :=
  extractBaseName_strips.1 (str "script") (str "def456") (str ".js") (by decide) (by decide)
    ⟨by decide, by decide⟩ (Or.inr ⟨str "js", by decide, by decide⟩)
    (by
      rintro ⟨x, code2, h, _⟩
      have hmem : 95 ∈ str ".js" := by
        rw [h]
        simp
      revert hmem
      decide)

/-- C8: a name that cannot be written as stem + "_" + code + ext (stem
non-empty, code at least 6 characters of `[a-zA-Z0-9]`, ext empty or a dot
followed by dot-free characters) is returned unchanged; so is every name
without an underscore, and so is `no_commit_code.doc`. -/
theorem extractBaseName_unchanged (n : GoString) :
    ((¬ ∃ stem code ext, HasCommitCode n stem code ext) → extractBaseName n = n) ∧
      (95 ∉ n → extractBaseName n = n) ∧
      extractBaseName (str "no_commit_code.doc") = str "no_commit_code.doc" := by
  refine ⟨?_, extractBaseName_of_no_underscore, by decide⟩
  intro h
  apply extractBaseName_of_stemSearch_none
  apply stemSearch_none_of_no_decomposition
  rintro ⟨stem, code, ext, hd, _⟩
  exact h ⟨stem, code, ext, hd⟩

/-- Witness of C8 at `no_commit_code.doc`, which has underscores but no
decomposition, and at `image.png`, which has no underscore. -/
theorem extractBaseName_unchanged_witness :
    (¬ ∃ stem code ext, HasCommitCode (str "no_commit_code.doc") stem code ext) ∧
      extractBaseName (str "no_commit_code.doc") = str "no_commit_code.doc" ∧
      95 ∉ str "image.png" ∧ extractBaseName (str "image.png") = str "image.png" :=
  have hno : ¬ ∃ stem code ext, HasCommitCode (str "no_commit_code.doc") stem code ext :=
    fun ⟨stem, code, ext, hd⟩ => by
      have h10 : 10 ∈ stem := stemSearch_none (by decide) stem code ext hd
      have hmem : 10 ∈ str "no_commit_code.doc" := by
        rw [hd.1]
        simp [h10]
      revert hmem
      decide
  ⟨hno, (extractBaseName_unchanged (str "no_commit_code.doc")).1 hno, by decide,
    (extractBaseName_unchanged (str "image.png")).2.1 (by decide)⟩

/-! ## Archive-name normalization -/

/-- C6 (as stated, refuted): normalizing `release_20230815_final.zip` gives
`release_20230815`, and normalizing that again gives `release`. -/
theorem extractZipBaseName_not_idempotent :
    extractZipBaseName (str "release_20230815_final.zip") = str "release_20230815" ∧
      extractZipBaseName (extractZipBaseName (str "release_20230815_final.zip")) =
        str "release" ∧
      extractZipBaseName (extractZipBaseName (str "release_20230815_final.zip")) ≠
        extractZipBaseName (str "release_20230815_final.zip") := by
  decide

/-- C6 (amended): normalizing an archive name twice equals normalizing it once
exactly when the once-normalized name contains no underscore and does not end
in `.zip`. -/
theorem extractZipBaseName_idempotent_iff (n : GoString) :
    extractZipBaseName (extractZipBaseName n) = extractZipBaseName n ↔
      (95 ∉ extractZipBaseName n ∧ ¬ ∃ u, extractZipBaseName n = u ++ str ".zip") := by
  generalize extractZipBaseName n = r
  constructor
  · intro h
    have hsuf : ¬ ∃ u, r = u ++ str ".zip" := by
      rintro ⟨u, hu⟩
      have ht : trimSuffix r (str ".zip") = u := by
        rw [hu]
        exact trimSuffix_append u _
      have hlen : (extractZipBaseName r).length ≤ u.length := by
        by_cases h95 : 95 ∈ u
        · obtain ⟨a, suf, hl, hs⟩ := last_occurrence h95
          rw [extractZipBaseName_of_last_underscore r a suf (by rw [ht, hl]) hs, hl]
          simp
        · rw [extractZipBaseName_of_no_underscore r (by rw [ht]; exact h95), ht]
      rw [h, hu, str_zip] at hlen
      simp at hlen
    refine ⟨?_, hsuf⟩
    intro h95
    have ht : trimSuffix r (str ".zip") = r := trimSuffix_of_not_suffix r _ hsuf
    obtain ⟨a, suf, hl, hs⟩ := last_occurrence h95
    rw [extractZipBaseName_of_last_underscore r a suf (by rw [ht, hl]) hs] at h
    have hlen := congrArg List.length h
    rw [hl] at hlen
    simp at hlen
  · rintro ⟨h95, hsuf⟩
    have ht : trimSuffix r (str ".zip") = r := trimSuffix_of_not_suffix r _ hsuf
    rw [extractZipBaseName_of_no_underscore r (by rw [ht]; exact h95), ht]

/-- C9: with `t` the name `s` without one trailing `.zip` (or `s` itself when
it does not end in `.zip`), `extractZipBaseName s` is `t` when `t` has no
underscore, and otherwise the part of `t` before its last underscore;
`release_20230815_final.zip` gives `release_20230815`, `package_v1.2.3.zip`
gives `package`, and `no_extension_here` gives `no_extension`. -/
theorem extractZipBaseName_spec :
    (∀ s t : GoString, (s = t ++ str ".zip" ∨ ((¬ ∃ u, s = u ++ str ".zip") ∧ t = s)) →
        (95 ∉ t → extractZipBaseName s = t) ∧
          (∀ a suf, t = a ++ 95 :: suf → 95 ∉ suf → extractZipBaseName s = a)) ∧
      extractZipBaseName (str "release_20230815_final.zip") = str "release_20230815" ∧
      extractZipBaseName (str "package_v1.2.3.zip") = str "package" ∧
      extractZipBaseName (str "no_extension_here") = str "no_extension" := by
  refine ⟨?_, by decide, by decide, by decide⟩
  intro s t hst
  have ht : trimSuffix s (str ".zip") = t := by
    rcases hst with h | ⟨h, ht⟩
    · rw [h]
      exact trimSuffix_append t _
    · rw [ht]
      exact trimSuffix_of_not_suffix s _ h
  constructor
  · intro h95
    rw [extractZipBaseName_of_no_underscore s (by rw [ht]; exact h95), ht]
  · intro a suf hl hs
    exact extractZipBaseName_of_last_underscore s a suf (by rw [ht, hl]) hs

/-- Witness of C9 at `multiple_under_scores_here.zip`, whose name without
`.zip` is `multiple_under_scores` + `_` + `here`, and at `simple.zip`, whose
name without `.zip` has no underscore. -/
theorem extractZipBaseName_spec_witness :
    extractZipBaseName (str "multiple_under_scores_here.zip") = str "multiple_under_scores" ∧
      extractZipBaseName (str "simple.zip") = str "simple" :=
  ⟨(extractZipBaseName_spec.1 (str "multiple_under_scores_here.zip")
      (str "multiple_under_scores_here") (Or.inl (by decide))).2
        (str "multiple_under_scores") (str "here") (by decide) (by decide),
    (extractZipBaseName_spec.1 (str "simple.zip") (str "simple") (Or.inl (by decide))).1
      (by decide)⟩

/-! ## Content classification -/

theorem nullByteLoop_iff (b : GoString) : nullByteLoop b = true ↔ 0 ∈ b := by
  induction b with
  | nil => simp [nullByteLoop]
  | cons x t ih =>
    simp only [nullByteLoop, List.mem_cons]
    by_cases hx : x = 0
    · simp [hx]
    · rw [if_neg hx, ih]
      constructor
      · intro h
        exact Or.inr h
      · rintro (h | h)
        · exact absurd h.symm hx
        · exact h

/-- C10: `isBinaryContent b` is true exactly when `b` is not valid UTF-8 or
contains a zero byte; so valid UTF-8 without a zero byte is text, anything
with a zero byte is binary, and the empty sequence is text. -/
theorem isBinaryContent_iff (b : GoString) :
    (isBinaryContent b = true ↔ (utf8Valid b = false ∨ 0 ∈ b)) ∧
      (utf8Valid b = true → 0 ∉ b → isBinaryContent b = false) ∧
      (0 ∈ b → isBinaryContent b = true) ∧
      isBinaryContent [] = false := by
  have hiff : isBinaryContent b = true ↔ (utf8Valid b = false ∨ 0 ∈ b) := by
    unfold isBinaryContent
    rw [← nullByteLoop_iff]
    cases utf8Valid b <;> cases nullByteLoop b <;> simp
  refine ⟨hiff, ?_, fun h => hiff.2 (Or.inr h), by decide⟩
  intro hv h0
  cases hb : isBinaryContent b with
  | false => rfl
  | true =>
    rcases hiff.1 hb with h | h
    · rw [hv] at h
      exact absurd h (by decide)
    · exact absurd h h0

/-- Witness of C10 at `hello world` (text) and at the bytes 0, 1, 2 (binary). -/
theorem isBinaryContent_iff_witness :
    isBinaryContent (str "hello world") = false ∧ isBinaryContent [0, 1, 2] = true :=
  ⟨(isBinaryContent_iff (str "hello world")).2.1 (by decide) (by decide),
    (isBinaryContent_iff [0, 1, 2]).2.2.1 (by decide)⟩

/-! ## Lemmas on the reading loop -/

theorem mapGet_mapSet (m : FileMap) (k : GoString) (v : FileInfo) (k1 : GoString) :
    mapGet (mapSet m k v) k1 = if k = k1 then some v else mapGet m k1 := by
  induction m with
  | nil => simp [mapSet, mapGet]
  | cons kv rest ih =>
    obtain ⟨k0, v0⟩ := kv
    simp only [mapSet]
    by_cases h : k0 = k
    · subst h
      simp only [if_true, mapGet]
      by_cases h1 : k0 = k1
      · simp [h1]
      · simp [h1]
    · rw [if_neg h]
      simp only [mapGet, ih]
      by_cases h1 : k0 = k1
      · subst h1
        have : ¬ k = k0 := fun hk => h hk.symm
        simp [this]
      · simp [h1]

theorem fileEntries_append (a b : List ZipFile) :
    fileEntries (a ++ b) = fileEntries a ++ fileEntries b := by
  simp [fileEntries]

theorem fileEntries_dir {file : ZipFile} (h : file.isDir = true) : fileEntries [file] = [] := by
  simp [fileEntries, h]

theorem fileEntries_file {file : ZipFile} (h : file.isDir = false) :
    fileEntries [file] = [file] := by
  simp [fileEntries, h]

theorem readZipStep_dir (sha : GoString → GoString) (files : FileMap) {file : ZipFile}
    (h : file.isDir = true) : readZipStep sha files file = .ok files := by
  unfold readZipStep
  simp [h]

theorem readZipStep_content (sha : GoString → GoString) (files : FileMap) {file : ZipFile}
    {c : GoString} (hdir : file.isDir = false) (hc : file.Data = .content c) :
    readZipStep sha files file =
      .ok (match mapGet files (entryKey file) with
        | some existingFile =>
          if existingFile.Name.length > file.Name.length then
            mapSet files (entryKey file) (entryInfo sha file)
          else files
        | none => mapSet files (entryKey file) (entryInfo sha file)) := by
  unfold readZipStep entryKey
  simp only [hdir, hc, Bool.false_eq_true, if_false]
  cases mapGet files (extractBaseName (filepathBase file.Name)) with
  | none => simp [entryInfo, entryContent, hc, entryKey]
  | some ex =>
    simp only
    split <;> simp [entryInfo, entryContent, hc, entryKey]

theorem readZipStep_openFails (sha : GoString → GoString) (files : FileMap) {file : ZipFile}
    (hdir : file.isDir = false) (hc : file.Data = .openFails) :
    readZipStep sha files file = .error (.openFile file.Name) := by
  unfold readZipStep
  simp [hdir, hc]

theorem readZipStep_readFails (sha : GoString → GoString) (files : FileMap) {file : ZipFile}
    (hdir : file.isDir = false) (hc : file.Data = .readFails) :
    readZipStep sha files file = .error (.readFile file.Name) := by
  unfold readZipStep
  simp [hdir, hc]

theorem keptUnder_append_other {sha : GoString → GoString} {entries : List ZipFile}
    {k : GoString} {e : FileInfo} (h : KeptUnder sha entries k e) (file : ZipFile)
    (hlen : entryKey file = k → e.Name.length ≤ file.Name.length) :
    KeptUnder sha (entries ++ [file]) k e := by
  obtain ⟨pre, f, post, hsplit, hk, hc, he, hpre, hpost⟩ := h
  refine ⟨pre, f, post ++ [file], by simp [hsplit], hk, hc, he, hpre, ?_⟩
  intro g hg hgk
  rw [List.mem_append] at hg
  rcases hg with hg | hg
  · exact hpost g hg hgk
  · simp only [List.mem_singleton] at hg
    subst hg
    have := hlen hgk
    rw [he] at this
    simpa [entryInfo] using this

theorem keptUnder_new {sha : GoString → GoString} {entries : List ZipFile} {file : ZipFile}
    {c : GoString} (hc : file.Data = .content c)
    (hshort : ∀ g ∈ entries, entryKey g = entryKey file → file.Name.length < g.Name.length) :
    KeptUnder sha (entries ++ [file]) (entryKey file) (entryInfo sha file) :=
  ⟨entries, file, [], by simp, rfl, ⟨c, hc⟩, rfl, hshort, by simp⟩

theorem readInvariant_nil (sha : GoString → GoString) : ReadInvariant sha [] [] := by
  intro k
  constructor
  · intro _ f hf
    simp [fileEntries] at hf
  · intro e he
    simp [mapGet] at he

theorem readInvariant_step {sha : GoString → GoString} {done : List ZipFile}
    {files files1 : FileMap} {file : ZipFile} (hinv : ReadInvariant sha done files)
    (hstep : readZipStep sha files file = .ok files1) :
    ReadInvariant sha (done ++ [file]) files1 := by
  cases hdir : file.isDir with
  | true =>
    rw [readZipStep_dir sha files hdir] at hstep
    cases hstep
    intro k
    rw [fileEntries_append, fileEntries_dir hdir, List.append_nil]
    exact hinv k
  | false =>
    cases hdata : file.Data with
    | openFails =>
      rw [readZipStep_openFails sha files hdir hdata] at hstep
      cases hstep
    | readFails =>
      rw [readZipStep_readFails sha files hdir hdata] at hstep
      cases hstep
    | content c =>
      rw [readZipStep_content sha files hdir hdata] at hstep
      intro k
      rw [fileEntries_append, fileEntries_file hdir]
      by_cases hk : entryKey file = k
      · -- the key of the new entry
        subst hk
        cases hget : mapGet files (entryKey file) with
        | none =>
          rw [hget] at hstep
          simp only at hstep
          cases hstep
          have hnone := (hinv (entryKey file)).1 hget
          constructor
          · intro h
            rw [mapGet_mapSet] at h
            simp at h
          · intro e he
            rw [mapGet_mapSet] at he
            simp only [if_true, Option.some.injEq] at he
            subst he
            exact keptUnder_new hdata (fun g hg hgk => absurd hgk (hnone g hg))
        | some ex =>
          rw [hget] at hstep
          simp only at hstep
          have hkept := (hinv (entryKey file)).2 ex hget
          by_cases hlen : ex.Name.length > file.Name.length
          · rw [if_pos hlen] at hstep
            cases hstep
            constructor
            · intro h
              rw [mapGet_mapSet] at h
              simp at h
            · intro e he
              rw [mapGet_mapSet] at he
              simp only [if_true, Option.some.injEq] at he
              subst he
              refine keptUnder_new hdata ?_
              intro g hg hgk
              obtain ⟨pre, f, post, hsplit, _, _, hex, hpre, hpost⟩ := hkept
              have hfl : f.Name.length = ex.Name.length := by
                rw [hex]
                simp [entryInfo]
              rw [hsplit] at hg
              simp only [List.mem_append, List.mem_cons] at hg
              rcases hg with hg | hg | hg
              · have := hpre g hg hgk
                omega
              · subst hg
                omega
              · have := hpost g hg hgk
                omega
          · rw [if_neg hlen] at hstep
            cases hstep
            constructor
            · intro h
              rw [hget] at h
              cases h
            · intro e he
              rw [hget] at he
              simp only [Option.some.injEq] at he
              subst he
              exact keptUnder_append_other hkept file (fun _ => by omega)
      · -- another key
        have hsame : mapGet files1 k = mapGet files k := by
          cases hget : mapGet files (entryKey file) with
          | none =>
            rw [hget] at hstep
            simp only at hstep
            cases hstep
            rw [mapGet_mapSet, if_neg hk]
          | some ex =>
            rw [hget] at hstep
            simp only at hstep
            by_cases hlen : ex.Name.length > file.Name.length
            · rw [if_pos hlen] at hstep
              cases hstep
              rw [mapGet_mapSet, if_neg hk]
            · rw [if_neg hlen] at hstep
              cases hstep
              rfl
        rw [hsame]
        constructor
        · intro h f hf
          rw [List.mem_append] at hf
          rcases hf with hf | hf
          · exact (hinv k).1 h f hf
          · simp only [List.mem_singleton] at hf
            subst hf
            exact hk
        · intro e he
          exact keptUnder_append_other ((hinv k).2 e he) file (fun h => absurd h hk)

theorem readInvariant_loop {sha : GoString → GoString} :
    ∀ (rest done : List ZipFile) (files files1 : FileMap), ReadInvariant sha done files →
      readZipLoop sha files rest = .ok files1 → ReadInvariant sha (done ++ rest) files1 := by
  intro rest
  induction rest with
  | nil =>
    intro done files files1 hinv hloop
    simp only [readZipLoop] at hloop
    cases hloop
    simpa using hinv
  | cons f rest ih =>
    intro done files files1 hinv hloop
    simp only [readZipLoop] at hloop
    cases hstep : readZipStep sha files f with
    | error e =>
      rw [hstep] at hloop
      cases hloop
    | ok files2 =>
      rw [hstep] at hloop
      have := ih (done ++ [f]) files2 files1 (readInvariant_step hinv hstep) hloop
      simpa using this

/-- What `readZipContents` holds after a successful read. -/
theorem readZipContents_invariant {sha : GoString → GoString} {reader : List ZipFile}
    {files : FileMap} (h : readZipContents sha (some reader) = .ok files) :
    ReadInvariant sha reader files := by
  unfold readZipContents at h
  simpa using readInvariant_loop reader [] [] files (readInvariant_nil sha) h

/-! ## Lemmas on the diff -/

theorem getD_of_length_le (lines : List GoString) (i : Nat) (h : ¬ i < lines.length) :
    lines.getD i [] = [] := by
  rw [List.getD_eq_getElem?_getD, List.getElem?_eq_none (by omega)]
  rfl

theorem foldl_append_flatten (f : Nat → GoString) :
    ∀ (l : List Nat) (init : GoString),
      l.foldl (fun diff i => diff ++ f i) init = init ++ (l.map f).flatten := by
  intro l
  induction l with
  | nil => simp
  | cons x t ih =>
    intro init
    simp [ih, List.append_assoc]

/-- The loop of `generateDiff` appends the contribution of each index. -/
theorem generateDiff_of_ne {content1 content2 : GoString} (h : content1 ≠ content2)
    (fileName : GoString) :
    generateDiff content1 content2 fileName =
      diffHeader fileName ++ diffBody (splitLines content1) (splitLines content2) := by
  unfold generateDiff diffBody
  rw [if_neg h]
  simp only
  rw [← foldl_append_flatten]
  have hmax : (if (splitLines content2).length > (splitLines content1).length then
      (splitLines content2).length else (splitLines content1).length) =
      max (splitLines content1).length (splitLines content2).length := by
    split <;> omega
  rw [hmax]
  unfold diffHeader
  congr 1
  funext diff i
  unfold diffLine
  have e1 : (if i < (splitLines content1).length then (splitLines content1).getD i [] else []) =
      (splitLines content1).getD i [] := by
    split
    · rfl
    · rename_i hlt
      exact (getD_of_length_le _ i hlt).symm
  have e2 : (if i < (splitLines content2).length then (splitLines content2).getD i [] else []) =
      (splitLines content2).getD i [] := by
    split
    · rfl
    · rename_i hlt
      exact (getD_of_length_le _ i hlt).symm
  simp only [e1, e2]
  generalize (splitLines content1).getD i [] = a
  generalize (splitLines content2).getD i [] = b
  by_cases hab : a = b
  · simp [hab]
  · by_cases h1 : i < (splitLines content1).length <;>
      by_cases h2 : i < (splitLines content2).length <;>
      simp [hab, h1, h2]

theorem diffHeader_ne_nil (fileName : GoString) : diffHeader fileName ≠ [] := by
  unfold diffHeader
  have : str "--- " = 45 :: 45 :: 45 :: [32] := by decide
  rw [this]
  simp

theorem splitLines_ne_nil (s : GoString) : splitLines s ≠ [] := by
  induction s with
  | nil => simp [splitLines]
  | cons c rest ih =>
    simp only [splitLines]
    split
    · simp
    · cases h : splitLines rest with
      | nil => simp
      | cons l ls => simp

/-- The lines of `splitLines s` hold no line feed, and joining them with line
feeds gives `s` back. -/
theorem splitLines_spec (s : GoString) :
    List.intercalate [10] (splitLines s) = s ∧ ∀ l ∈ splitLines s, 10 ∉ l := by
  induction s with
  | nil => simp [splitLines, List.intercalate]
  | cons c rest ih =>
    obtain ⟨hjoin, hmem⟩ := ih
    simp only [splitLines]
    by_cases hc : c = 10
    · subst hc
      simp only [if_true]
      cases hs : splitLines rest with
      | nil => exact absurd hs (splitLines_ne_nil rest)
      | cons l ls =>
        rw [hs] at hjoin hmem
        constructor
        · rw [← hjoin]
          simp [List.intercalate, List.intersperse]
        · intro x hx
          simp only [List.mem_cons] at hx
          rcases hx with hx | hx
          · subst hx
            simp
          · exact hmem x (by simpa using hx)
    · rw [if_neg hc]
      cases hs : splitLines rest with
      | nil => exact absurd hs (splitLines_ne_nil rest)
      | cons l ls =>
        rw [hs] at hjoin hmem
        simp only
        constructor
        · rw [← hjoin]
          cases ls with
          | nil => simp [List.intercalate, List.intersperse]
          | cons l2 ls2 => simp [List.intercalate, List.intersperse]
        · intro x hx
          simp only [List.mem_cons] at hx
          rcases hx with hx | hx
          · subst hx
            intro h10
            simp only [List.mem_cons] at h10
            rcases h10 with h10 | h10
            · exact hc h10.symm
            · exact hmem l (by simp) h10
          · exact hmem x (by simp [hx])

/-! ## Lemmas on pair matching -/

theorem pathMapGet_pathMapSet (m : PathMap) (k v k1 : GoString) :
    pathMapGet (pathMapSet m k v) k1 = if k = k1 then some v else pathMapGet m k1 := by
  induction m with
  | nil => simp [pathMapSet, pathMapGet]
  | cons kv rest ih =>
    obtain ⟨k0, v0⟩ := kv
    simp only [pathMapSet]
    by_cases h : k0 = k
    · subst h
      simp only [if_true, pathMapGet]
      by_cases h1 : k0 = k1
      · simp [h1]
      · simp [h1]
    · rw [if_neg h]
      simp only [pathMapGet, ih]
      by_cases h1 : k0 = k1
      · subst h1
        have : ¬ k = k0 := fun hk => h hk.symm
        simp [this]
      · simp [h1]

theorem lastWithKey_cons (f : GoString) (rest : List GoString) (k : GoString) :
    lastWithKey (f :: rest) k =
      match lastWithKey rest k with
      | some g => some g
      | none => if zipKey f = k then some f else none := by
  unfold lastWithKey
  rw [List.reverse_cons, List.find?_append]
  cases List.find? (fun f => decide (zipKey f = k)) rest.reverse with
  | some g => simp
  | none =>
    by_cases h : zipKey f = k
    · simp [h]
    · simp [h]

/-- The map built from the second listing holds, under every normalized name,
the last path of the listing with that name. -/
theorem pathMapGet_dir2Map (k : GoString) :
    ∀ (files2 : List GoString) (m : PathMap),
      pathMapGet (files2.foldl (fun dir2Map file2 => pathMapSet dir2Map (zipKey file2) file2) m) k =
        match lastWithKey files2 k with
        | some f => some f
        | none => pathMapGet m k := by
  intro files2
  induction files2 with
  | nil =>
    intro m
    simp [lastWithKey]
  | cons f rest ih =>
    intro m
    rw [List.foldl_cons, ih, lastWithKey_cons]
    cases lastWithKey rest k with
    | some g => rfl
    | none =>
      simp only [pathMapGet_pathMapSet]
      by_cases h : zipKey f = k
      · simp [h]
      · simp [h]

theorem foldl_pairs (dir2Map : PathMap) :
    ∀ (files1 : List GoString) (init : List ZipPair),
      files1.foldl
          (fun pairs file1 =>
            match pathMapGet dir2Map (zipKey file1) with
            | some file2 =>
              pairs ++ [{ BaseName := zipKey file1, Zip1Path := file1, Zip2Path := file2 }]
            | none => pairs)
          init =
        init ++ files1.filterMap (fun file1 =>
          (pathMapGet dir2Map (zipKey file1)).map
            (fun file2 => { BaseName := zipKey file1, Zip1Path := file1, Zip2Path := file2 })) := by
  intro files1
  induction files1 with
  | nil => simp
  | cons f rest ih =>
    intro init
    rw [List.foldl_cons, ih]
    cases h : pathMapGet dir2Map (zipKey f) with
    | none => simp [List.filterMap_cons, h]
    | some g => simp [List.filterMap_cons, h]

/-- The pair that `findZipPairs` emits for a first-directory path, if any. -/
theorem findZipPairs_eq (files1 files2 : List GoString) :
    findZipPairs (some files1) (some files2) =
      .ok (files1.filterMap (fun file1 =>
        (lastWithKey files2 (zipKey file1)).map
          (fun file2 => { BaseName := zipKey file1, Zip1Path := file1, Zip2Path := file2 }))) := by
  unfold findZipPairs
  simp only
  have h := foldl_pairs
    (files2.foldl (fun dir2Map file2 => pathMapSet dir2Map (zipKey file2) file2) []) files1 []
  simp only [zipKey] at h
  refine Eq.trans (congrArg Except.ok h) ?_
  simp only [List.nil_append]
  congr 1
  apply List.filterMap_congr
  intro file1 _
  have hk := pathMapGet_dir2Map (zipKey file1) files2 []
  simp only [zipKey] at hk ⊢
  rw [hk]
  cases hl : lastWithKey files2 (extractZipBaseName (filepathBase file1)) with
  | none => simp [pathMapGet]
  | some g => simp

theorem lastWithKey_eq_some {files : List GoString} {k f : GoString}
    (h : lastWithKey files k = some f) :
    zipKey f = k ∧ ∃ pre post, files = pre ++ f :: post ∧ ∀ g ∈ post, zipKey g ≠ k := by
  unfold lastWithKey at h
  obtain ⟨hp, as, bs, hsplit, hnot⟩ := List.find?_eq_some.1 h
  refine ⟨by simpa using hp, bs.reverse, as.reverse, ?_, ?_⟩
  · have := congrArg List.reverse hsplit
    simpa using this
  · intro g hg
    have := hnot g (List.mem_reverse.1 hg)
    simpa using this

theorem lastWithKey_isSome_iff (files : List GoString) (k : GoString) :
    (lastWithKey files k).isSome = files.any (fun g => decide (zipKey g = k)) := by
  unfold lastWithKey
  rw [Bool.eq_iff_iff]
  simp

theorem map_filterMap_eq_filter {α β : Type} (g : α → Option β) (p : β → α)
    (hg : ∀ x y, g x = some y → p y = x) :
    ∀ l : List α, (l.filterMap g).map p = l.filter (fun x => (g x).isSome) := by
  intro l
  induction l with
  | nil => simp
  | cons x t ih =>
    cases hx : g x with
    | none => simp [List.filterMap_cons, hx, ih]
    | some y => simp [List.filterMap_cons, hx, ih, hg x y hx]

/-- The first-directory paths of the pairs are the matched paths of the first
listing, in order. -/
theorem findZipPairs_paths (files1 files2 : List GoString) :
    (files1.filterMap (fun file1 =>
        (lastWithKey files2 (zipKey file1)).map
          (fun file2 => ZipPair.mk (zipKey file1) file1 file2))).map ZipPair.Zip1Path =
      files1.filter (fun f1 => files2.any (fun f2 => decide (zipKey f2 = zipKey f1))) := by
  rw [map_filterMap_eq_filter]
  · apply List.filter_congr
    intro x _
    simp only [Option.isSome_map']
    exact lastWithKey_isSome_iff files2 (zipKey x)
  · intro x y hxy
    cases h : lastWithKey files2 (zipKey x) with
    | none => simp [h] at hxy
    | some g =>
      simp only [h, Option.map_some', Option.some.injEq] at hxy
      rw [← hxy]

theorem mem_findZipPairs {files1 files2 : List GoString} {p : ZipPair}
    (hp : p ∈ files1.filterMap (fun file1 =>
        (lastWithKey files2 (zipKey file1)).map
          (fun file2 => ZipPair.mk (zipKey file1) file1 file2))) :
    p.Zip1Path ∈ files1 ∧ p.BaseName = zipKey p.Zip1Path ∧
      lastWithKey files2 p.BaseName = some p.Zip2Path := by
  rw [List.mem_filterMap] at hp
  obtain ⟨f1, hf1, hmap⟩ := hp
  cases h : lastWithKey files2 (zipKey f1) with
  | none => simp [h] at hmap
  | some g =>
    simp only [h, Option.map_some', Option.some.injEq] at hmap
    subst hmap
    exact ⟨hf1, rfl, h⟩

/-! ## Lemmas on read errors and on reordered archives -/

theorem readZipLoop_readable (sha : GoString → GoString) :
    ∀ (reader : List ZipFile) (files : FileMap), Readable reader →
      ∃ files1, readZipLoop sha files reader = .ok files1 := by
  intro reader
  induction reader with
  | nil =>
    intro files _
    exact ⟨files, rfl⟩
  | cons f rest ih =>
    intro files hr
    have hr2 : Readable rest := fun g hg hd => hr g (List.mem_cons_of_mem _ hg) hd
    simp only [readZipLoop]
    cases hdir : f.isDir with
    | true =>
      rw [readZipStep_dir sha files hdir]
      exact ih files hr2
    | false =>
      obtain ⟨c, hc⟩ := hr f (by simp) hdir
      rw [readZipStep_content sha files hdir hc]
      exact ih _ hr2

theorem readZipLoop_first_failure (sha : GoString → GoString) (f : ZipFile)
    (post : List ZipFile) (e : ZipError)
    (hstep : ∀ files, readZipStep sha files f = .error e) :
    ∀ (pre : List ZipFile) (files : FileMap), Readable pre →
      readZipLoop sha files (pre ++ f :: post) = .error e := by
  intro pre
  induction pre with
  | nil =>
    intro files _
    simp only [List.nil_append, readZipLoop, hstep]
  | cons g rest ih =>
    intro files hr
    have hr2 : Readable rest := fun x hx hd => hr x (List.mem_cons_of_mem _ hx) hd
    simp only [List.cons_append, readZipLoop]
    cases hdir : g.isDir with
    | true =>
      rw [readZipStep_dir sha files hdir]
      exact ih files hr2
    | false =>
      obtain ⟨c, hc⟩ := hr g (by simp) hdir
      rw [readZipStep_content sha files hdir hc]
      exact ih _ hr2

theorem mem_mapKeys_of_entry {sha : GoString → GoString} {reader : List ZipFile}
    {files : FileMap} (hinv : ReadInvariant sha reader files) {g : ZipFile}
    (hg : g ∈ fileEntries reader) : entryKey g ∈ mapKeys files := by
  by_contra hnot
  exact (hinv (entryKey g)).1 ((mapGet_eq_none_iff files _).2 hnot) g hg rfl

theorem isShortest_of_keptUnder {sha : GoString → GoString} {reader : List ZipFile}
    {k : GoString} {e : FileInfo} (h : KeptUnder sha (fileEntries reader) k e) :
    ∃ f, IsShortest reader f ∧ entryKey f = k ∧ e = entryInfo sha f := by
  obtain ⟨pre, f, post, hsplit, hk, _, hinfo, hpre, hpost⟩ := h
  refine ⟨f, ⟨by rw [hsplit]; simp, ?_⟩, hk, hinfo⟩
  intro g hg hgk
  rw [hsplit] at hg
  simp only [List.mem_append, List.mem_cons] at hg
  rcases hg with hg | hg | hg
  · exact Nat.le_of_lt (hpre g hg (by rw [hgk, hk]))
  · rw [hg]
  · exact hpost g hg (by rw [hgk, hk])

/-- Two archives with the same non-directory entries, in which the shortest
entries of a key agree in content: every entry kept from the one has a partner
with the same hash and size kept from the other. -/
theorem partner_of_same_entries {sha : GoString → GoString} {ra rb : List ZipFile}
    {fa fb : FileMap} (ha : ReadInvariant sha ra fa) (hb : ReadInvariant sha rb fb)
    (hsame : ∀ f, f ∈ fileEntries ra ↔ f ∈ fileEntries rb)
    (htie : ∀ f g, IsShortest ra f → IsShortest ra g → entryKey f = entryKey g →
      entryContent f = entryContent g)
    {k : GoString} {e1 : FileInfo} (he : mapGet fa k = some e1) :
    ∃ e2, mapGet fb k = some e2 ∧ e1.Hash = e2.Hash ∧ e1.Size = e2.Size := by
  obtain ⟨f1, hs1, hk1, hinfo1⟩ := isShortest_of_keptUnder ((ha k).2 e1 he)
  cases hget : mapGet fb k with
  | none => exact absurd hk1 ((hb k).1 hget f1 ((hsame f1).1 hs1.1))
  | some e2 =>
    obtain ⟨f2, hs2, hk2, hinfo2⟩ := isShortest_of_keptUnder ((hb k).2 e2 hget)
    have hs2a : IsShortest ra f2 :=
      ⟨(hsame f2).2 hs2.1, fun g hg hgk => hs2.2 g ((hsame g).1 hg) hgk⟩
    have hc := htie f1 f2 hs1 hs2a (by rw [hk1, hk2])
    refine ⟨e2, rfl, ?_, ?_⟩
    · rw [hinfo1, hinfo2]
      simp [entryInfo, hc]
    · rw [hinfo1, hinfo2]
      simp [entryInfo, hc]

/-! ## Archive reading -/

/-- C11: after a successful read, the entry kept under a normalized base name
`k` comes from a non-directory entry `f` of the archive that normalizes to `k`;
every non-directory entry normalizing to `k` that comes before `f` in the
archive has a strictly longer raw name, and every one that comes after has a
raw name at least as long, so `f` is the first entry of minimal raw-name
length; and every key some non-directory entry normalizes to has a kept
entry. -/
theorem readZipContents_keeps_first_shortest (sha : GoString → GoString)
    (reader : List ZipFile) (files : FileMap)
    (h : readZipContents sha (some reader) = .ok files) (k : GoString) :
    (∀ e, (k, e) ∈ files →
        ∃ pre f post, fileEntries reader = pre ++ f :: post ∧ f ∈ reader ∧ f.isDir = false ∧
          entryKey f = k ∧ e = entryInfo sha f ∧ e.Name = f.Name ∧
          (∀ g ∈ pre, entryKey g = k → f.Name.length < g.Name.length) ∧
          (∀ g ∈ post, entryKey g = k → f.Name.length ≤ g.Name.length)) ∧
      ((∃ g ∈ fileEntries reader, entryKey g = k) → ∃ e, (k, e) ∈ files) := by
  have hinv := readZipContents_invariant h
  have hnd := readZipContents_nodup h
  constructor
  · intro e he
    obtain ⟨pre, f, post, hsplit, hk, _, hinfo, hpre, hpost⟩ :=
      (hinv k).2 e (mapGet_eq_some_of_mem hnd he)
    have hf : f ∈ fileEntries reader := by
      rw [hsplit]
      simp
    obtain ⟨hfr, hfd⟩ := (mem_fileEntries_iff reader f).1 hf
    exact ⟨pre, f, post, hsplit, hfr, hfd, hk, hinfo, by rw [hinfo]; rfl, hpre, hpost⟩
  · rintro ⟨g, hg, hgk⟩
    cases hget : mapGet files k with
    | none => exact absurd hgk ((hinv k).1 hget g hg)
    | some e => exact ⟨e, mem_of_mapGet_eq_some hget⟩

/-- Witness of C11 at an archive with `docs/file_abc123.txt`, `file.txt` and
`file_def456.txt`: the entry kept under `file.txt` is the second one. -/
theorem readZipContents_keeps_first_shortest_witness :
    readZipContents toyDigest (some collidingZip) =
        .ok [(str "file.txt", entryInfo toyDigest
          ⟨str "file.txt", false, .content (str "second")⟩)] ∧
      ∃ pre f post, fileEntries collidingZip = pre ++ f :: post ∧ f ∈ collidingZip ∧
        f.isDir = false ∧ entryKey f = str "file.txt" ∧
        entryInfo toyDigest ⟨str "file.txt", false, .content (str "second")⟩ =
          entryInfo toyDigest f ∧
        (entryInfo toyDigest ⟨str "file.txt", false, .content (str "second")⟩).Name = f.Name ∧
        (∀ g ∈ pre, entryKey g = str "file.txt" → f.Name.length < g.Name.length) ∧
        (∀ g ∈ post, entryKey g = str "file.txt" → f.Name.length ≤ g.Name.length) :=
  ⟨rfl, (readZipContents_keeps_first_shortest toyDigest collidingZip
    [(str "file.txt", entryInfo toyDigest ⟨str "file.txt", false, .content (str "second")⟩)]
    rfl (str "file.txt")).1 _ (List.mem_singleton.2 rfl)⟩

/-! ## Diff generation -/

/-- C12: `generateDiff` returns the empty string exactly when the two contents
are equal; when they differ, the result starts with the two-line header
`--- name (ZIP 1)` / `+++ name (ZIP 2)`. -/
theorem generateDiff_empty_iff (content1 content2 fileName : GoString) :
    (generateDiff content1 content2 fileName = [] ↔ content1 = content2) ∧
      (content1 ≠ content2 → ∃ body, generateDiff content1 content2 fileName =
        str "--- " ++ fileName ++ str " (ZIP 1)\n+++ " ++ fileName ++ str " (ZIP 2)\n" ++ body) := by
  constructor
  · constructor
    · intro h
      by_contra hne
      rw [generateDiff_of_ne hne] at h
      exact diffHeader_ne_nil fileName (List.append_eq_nil.1 h).1
    · intro h
      simp [generateDiff, h]
  · intro hne
    refine ⟨diffBody (splitLines content1) (splitLines content2), ?_⟩
    rw [generateDiff_of_ne hne]
    have hmid : str " (ZIP 1)\n+++ " = str " (ZIP 1)\n" ++ str "+++ " := by decide
    rw [hmid]
    simp [diffHeader, List.append_assoc]

/-- Witness of C12 at the contents `a` and `b` under the name `f`. -/
theorem generateDiff_empty_iff_witness :
    ∃ body, generateDiff (str "a") (str "b") (str "f") =
      str "--- " ++ str "f" ++ str " (ZIP 1)\n+++ " ++ str "f" ++ str " (ZIP 2)\n" ++ body :=
  (generateDiff_empty_iff (str "a") (str "b") (str "f")).2 (by decide)

/-- C13: for contents that differ, the output of `generateDiff` is the header
followed by the concatenation, over the indices below the larger line count in
increasing order, of nothing when the two lines are equal (a missing line
counting as empty) and otherwise the removed line of the first side, if it has
one, followed by the added line of the second side, if it has one; the lines
are the pieces between line feeds; for `a\nb` against `a\nc` the body is
exactly `-b\n+c\n`. -/
theorem generateDiff_body :
    (∀ content1 content2 fileName : GoString, content1 ≠ content2 →
        generateDiff content1 content2 fileName =
          diffHeader fileName ++ diffBody (splitLines content1) (splitLines content2)) ∧
      (∀ s : GoString, List.intercalate [10] (splitLines s) = s ∧ ∀ l ∈ splitLines s, 10 ∉ l) ∧
      splitLines (str "a\nb") = [str "a", str "b"] ∧
      splitLines (str "a\nc") = [str "a", str "c"] ∧
      diffBody (splitLines (str "a\nb")) (splitLines (str "a\nc")) = str "-b\n+c\n" ∧
      generateDiff (str "a\nb") (str "a\nc") (str "f") =
        str "--- f (ZIP 1)\n+++ f (ZIP 2)\n" ++ str "-b\n+c\n" := by
  refine ⟨fun c1 c2 name h => generateDiff_of_ne h name, splitLines_spec, by decide, by decide,
    by decide, by decide⟩

/-- Witness of C13 at `content in zip1\nline 2\nline 3` against
`content in zip2\nmodified line 2\nline 3`, the text file of
`TestXMLReportGeneration`. -/
theorem generateDiff_body_witness :
    generateDiff (str "content in zip1\nline 2\nline 3")
        (str "content in zip2\nmodified line 2\nline 3") (str "different.txt") =
      diffHeader (str "different.txt") ++
        diffBody (splitLines (str "content in zip1\nline 2\nline 3"))
          (splitLines (str "content in zip2\nmodified line 2\nline 3")) :=
  generateDiff_body.1 _ _ _ (by decide)

/-! ## Diff records -/

theorem entry_of_read {sha : GoString → GoString} {reader : List ZipFile} {files : FileMap}
    (h : readZipContents sha (some reader) = .ok files) {k : GoString} {e : FileInfo}
    (he : mapGet files k = some e) : ∃ f, e = entryInfo sha f := by
  obtain ⟨_, f, _, _, _, _, hinfo, _⟩ := (readZipContents_invariant h k).2 e he
  exact ⟨f, hinfo⟩

theorem entry_of_read_archive {sha : GoString → GoString} {zip : ZipArchive} {files : FileMap}
    (h : readZipContents sha zip = .ok files) {k : GoString} {e : FileInfo}
    (he : mapGet files k = some e) : ∃ f, e = entryInfo sha f := by
  cases zip with
  | none => cases h
  | some reader => exact entry_of_read h he

/-- C14: the FileName fields of DiffDetails, read in order, are the Different
list; each record belongs to a name that is a key of both collections (whose
keys are distinct, so the two entries are the entries of that name), its
IsBinary flag is the disjunction of the two entries' flags, and its Diff is
empty when the flag is set and `generateDiff` of the two contents under that
name otherwise; and these loops are what `compareZipFiles` returns for two
archives read into these collections. -/
theorem compareZipFiles_diffDetails (o1 o2 : RangeOrder) (files1 files2 : FileMap) :
    (compareFileMaps o1 o2 files1 files2).DiffDetails.map DiffInfo.FileName =
        (compareFileMaps o1 o2 files1 files2).Different ∧
      (∀ d ∈ (compareFileMaps o1 o2 files1 files2).DiffDetails,
        ∃ e1 e2, (d.FileName, e1) ∈ files1 ∧ (d.FileName, e2) ∈ files2 ∧
          d.IsBinary = (e1.IsBinary || e2.IsBinary) ∧
          d.Diff = if d.IsBinary = true then []
            else generateDiff e1.Content e2.Content d.FileName) ∧
      (∀ (sha : GoString → GoString) (zip1 zip2 : ZipArchive),
        readZipContents sha zip1 = .ok files1 → readZipContents sha zip2 = .ok files2 →
          compareZipFiles sha o1 o2 zip1 zip2 = .ok (compareFileMaps o1 o2 files1 files2)) := by
  refine ⟨?_, ?_, fun _ _ _ h1 h2 => compareZipFiles_ok o1 o2 h1 h2⟩
  · rw [compareFileMaps_eq]
    simp only [List.map_map]
    apply List.map_congr_left
    intro kv _
    simp only [Function.comp, diffRecord]
    cases mapGet files2 kv.1 <;> rfl
  · rw [compareFileMaps_eq]
    intro d hd
    simp only [List.mem_map, List.mem_filter, mem_visit_iff] at hd
    obtain ⟨⟨k, e1⟩, ⟨hmem, hdiff⟩, hrec⟩ := hd
    simp only [isDifferent] at hdiff
    cases hget : mapGet files2 k with
    | none => simp [hget] at hdiff
    | some e2 =>
      simp only [diffRecord, hget] at hrec
      subst hrec
      refine ⟨e1, e2, hmem, mem_of_mapGet_eq_some hget, rfl, ?_⟩
      cases hb : (e1.IsBinary || e2.IsBinary) <;> simp [hb]

/-- Witness of C14 at the binary and the text file of `TestXMLReportGeneration`. -/
theorem compareZipFiles_diffDetails_witness :
    compareZipFiles toyDigest insertionOrder insertionOrder
        (some [⟨str "different.txt", false, .content (str "content in zip1\nline 2\nline 3")⟩,
          ⟨str "binary.exe", false, .content [0, 1, 2, 3]⟩])
        (some [⟨str "different.txt", false,
            .content (str "content in zip2\nmodified line 2\nline 3")⟩,
          ⟨str "binary.exe", false, .content [0, 1, 2, 4]⟩]) =
      .ok { OnlyInFirst := [], OnlyInSecond := [],
            Different := [str "different.txt", str "binary.exe"], Identical := [],
            DiffDetails := [
              { FileName := str "different.txt",
                Diff := str ("--- different.txt (ZIP 1)\n+++ different.txt (ZIP 2)\n" ++
                  "-content in zip1\n+content in zip2\n-line 2\n+modified line 2\n"),
                IsBinary := false },
              { FileName := str "binary.exe", Diff := [], IsBinary := true }] } :=
  (compareZipFiles_diffDetails insertionOrder insertionOrder
    [(str "different.txt", entryInfo toyDigest
        ⟨str "different.txt", false, .content (str "content in zip1\nline 2\nline 3")⟩),
      (str "binary.exe", entryInfo toyDigest ⟨str "binary.exe", false, .content [0, 1, 2, 3]⟩)]
    [(str "different.txt", entryInfo toyDigest
        ⟨str "different.txt", false, .content (str "content in zip2\nmodified line 2\nline 3")⟩),
      (str "binary.exe", entryInfo toyDigest ⟨str "binary.exe", false, .content [0, 1, 2, 4]⟩)]).2.2
    toyDigest _ _ rfl rfl

/-- C15: for two archives read by `readZipContents`, every diff record that
`compareZipFiles` returns with the IsBinary flag unset carries a non-empty
Diff. -/
theorem compareZipFiles_text_diff_nonempty (sha : GoString → GoString) (o1 o2 : RangeOrder)
    (zip1 zip2 : ZipArchive) (files1 files2 : FileMap)
    (h1 : readZipContents sha zip1 = .ok files1) (h2 : readZipContents sha zip2 = .ok files2) :
    ∃ r, compareZipFiles sha o1 o2 zip1 zip2 = .ok r ∧
      ∀ d ∈ r.DiffDetails, d.IsBinary = false → d.Diff ≠ [] := by
  refine ⟨_, compareZipFiles_ok o1 o2 h1 h2, ?_⟩
  have hn1 := readZipContents_nodup h1
  rw [compareFileMaps_eq]
  intro d hd hbin
  simp only [List.mem_map, List.mem_filter, mem_visit_iff] at hd
  obtain ⟨⟨k, e1⟩, ⟨hmem, hdiff⟩, hrec⟩ := hd
  simp only [isDifferent] at hdiff
  cases hget : mapGet files2 k with
  | none => simp [hget] at hdiff
  | some e2 =>
    simp only [hget, Bool.not_eq_true', decide_eq_false_iff_not] at hdiff
    simp only [diffRecord, hget] at hrec
    subst hrec
    simp only [Bool.or_eq_false_iff] at hbin
    obtain ⟨f1, hf1⟩ := entry_of_read_archive h1 (mapGet_eq_some_of_mem hn1 hmem)
    obtain ⟨f2, hf2⟩ := entry_of_read_archive h2 hget
    subst hf1 hf2
    simp only [entryInfo] at hbin hdiff
    have hne : entryContent f1 ≠ entryContent f2 := by
      intro heq
      apply hdiff
      rw [heq]
      exact ⟨rfl, rfl⟩
    simp only [entryInfo, hbin.1, hbin.2, Bool.or_self, Bool.not_false, if_true]
    rw [generateDiff_of_ne hne]
    intro hnil
    exact diffHeader_ne_nil _ (List.append_eq_nil.1 hnil).1

/-- Witness of C15 at two archives whose `different.txt` differ in one line. -/
theorem compareZipFiles_text_diff_nonempty_witness :
    ∃ r, compareZipFiles toyDigest insertionOrder reverseOrder
        (zipOf [("different.txt", "content in zip1")])
        (zipOf [("different.txt", "content in zip2")]) = .ok r ∧
      ∀ d ∈ r.DiffDetails, d.IsBinary = false → d.Diff ≠ [] :=
  compareZipFiles_text_diff_nonempty toyDigest insertionOrder reverseOrder _ _
    [(str "different.txt", ⟨str "different.txt", str "different.txt", 15,
      str "content in zip1", str "content in zip1", false⟩)]
    [(str "different.txt", ⟨str "different.txt", str "different.txt", 15,
      str "content in zip2", str "content in zip2", false⟩)]
    rfl rfl

/-! ## Pair matching -/

/-- C16: for two listings, `findZipPairs` returns pairs whose first-directory
paths are, in listing order, exactly the first-directory archives whose
normalized name is the normalized name of some second-directory archive; in
every pair BaseName is the normalized name of the file names of both paths,
and Zip2Path is the last path of the second listing with that normalized name.
With `a_v1.zip` and `b.zip` in the first directory and `a_v2.zip` in the
second, the result is the one pair `a`. -/
theorem findZipPairs_spec :
    (∀ files1 files2 : List GoString,
        ∃ pairs, findZipPairs (some files1) (some files2) = .ok pairs ∧
          pairs.map ZipPair.Zip1Path =
            files1.filter (fun f1 => files2.any (fun f2 => decide (zipKey f2 = zipKey f1))) ∧
          ∀ p ∈ pairs, p.BaseName = extractZipBaseName (filepathBase p.Zip1Path) ∧
            p.BaseName = extractZipBaseName (filepathBase p.Zip2Path) ∧
            ∃ pre post, files2 = pre ++ p.Zip2Path :: post ∧
              ∀ g ∈ post, extractZipBaseName (filepathBase g) ≠ p.BaseName) ∧
      findZipPairs (some [str "dir1/a_v1.zip", str "dir1/b.zip"]) (some [str "dir2/a_v2.zip"]) =
        .ok [{ BaseName := str "a", Zip1Path := str "dir1/a_v1.zip",
               Zip2Path := str "dir2/a_v2.zip" }] := by
  refine ⟨?_, rfl⟩
  intro files1 files2
  refine ⟨_, findZipPairs_eq files1 files2, findZipPairs_paths files1 files2, ?_⟩
  intro p hp
  obtain ⟨_, hbase, hlast⟩ := mem_findZipPairs hp
  obtain ⟨hkey, pre, post, hsplit, hpost⟩ := lastWithKey_eq_some hlast
  exact ⟨hbase, hkey.symm, pre, post, hsplit, hpost⟩

/-- C20 (as stated, refuted): with `a_v1.zip` and `a_v3.zip` in the first
directory and `a_v2.zip` in the second, both first-directory archives are
paired, and the two pairs share the BaseName `a`. -/
theorem findZipPairs_shared_baseName :
    findZipPairs (some [str "dir1/a_v1.zip", str "dir1/a_v3.zip"])
        (some [str "dir2/a_v2.zip"]) =
      .ok [{ BaseName := str "a", Zip1Path := str "dir1/a_v1.zip",
             Zip2Path := str "dir2/a_v2.zip" },
           { BaseName := str "a", Zip1Path := str "dir1/a_v3.zip",
             Zip2Path := str "dir2/a_v2.zip" }] ∧
      ¬ ([str "a", str "a"] : List GoString).Nodup :=
  ⟨rfl, by decide⟩

/-- C20 (amended): every first-directory archive whose normalized name has a
match is paired, so pairs share a BaseName when first-directory archives share
a matched normalized name; pairs with the same BaseName have the same
Zip2Path; and no two pairs share a BaseName when the normalized names of the
first-directory archives are pairwise distinct. -/
theorem findZipPairs_baseNames (files1 files2 : List GoString) :
    ∃ pairs, findZipPairs (some files1) (some files2) = .ok pairs ∧
      pairs.map ZipPair.Zip1Path =
        files1.filter (fun f1 => files2.any (fun f2 => decide (zipKey f2 = zipKey f1))) ∧
      (∀ p ∈ pairs, ∀ q ∈ pairs, p.BaseName = q.BaseName → p.Zip2Path = q.Zip2Path) ∧
      ((files1.map zipKey).Nodup → (pairs.map ZipPair.BaseName).Nodup) := by
  refine ⟨_, findZipPairs_eq files1 files2, findZipPairs_paths files1 files2, ?_, ?_⟩
  · intro p hp q hq hpq
    obtain ⟨_, _, hlp⟩ := mem_findZipPairs hp
    obtain ⟨_, _, hlq⟩ := mem_findZipPairs hq
    rw [hpq, hlq] at hlp
    exact (Option.some.inj hlp).symm
  · intro hnd
    have hbase : (files1.filterMap (fun file1 =>
        (lastWithKey files2 (zipKey file1)).map
          (fun file2 => ZipPair.mk (zipKey file1) file1 file2))).map ZipPair.BaseName =
        (files1.filter (fun f1 => (lastWithKey files2 (zipKey f1)).isSome)).map zipKey := by
      induction files1 with
      | nil => simp
      | cons x t ih =>
        have ih2 := ih (List.nodup_cons.1 hnd).2
        cases hx : lastWithKey files2 (zipKey x) with
        | none => simp [List.filterMap_cons, hx, ih2]
        | some y => simp [List.filterMap_cons, hx, ih2]
    rw [hbase]
    exact List.Nodup.sublist (List.Sublist.map zipKey (List.filter_sublist _)) hnd

/-- Witness of C20 at the listings of `TestFindZipPairs`, whose first-directory
names normalize to `package` and `release`. -/
theorem findZipPairs_baseNames_witness :
    ∃ pairs, findZipPairs (some [str "dir1/package_v1.zip", str "dir1/release_final.zip"])
        (some [str "dir2/package_v2.zip", str "dir2/release_beta.zip",
          str "dir2/unmatched.zip"]) = .ok pairs ∧
      (pairs.map ZipPair.BaseName).Nodup :=
  have h := findZipPairs_baseNames [str "dir1/package_v1.zip", str "dir1/release_final.zip"]
    [str "dir2/package_v2.zip", str "dir2/release_beta.zip", str "dir2/unmatched.zip"]
  h.elim fun pairs hp => ⟨pairs, hp.1, hp.2.2.2 (by decide)⟩

/-- Witness of C16 at the listings of `TestFindZipPairs`: the pairs `package`
and `release`, and `unmatched.zip` in no pair. -/
theorem findZipPairs_spec_witness :
    ∃ pairs, findZipPairs (some [str "dir1/package_v1.zip", str "dir1/release_final.zip"])
        (some [str "dir2/package_v2.zip", str "dir2/release_beta.zip",
          str "dir2/unmatched.zip"]) = .ok pairs ∧
      pairs.map ZipPair.Zip1Path = [str "dir1/package_v1.zip", str "dir1/release_final.zip"] ∧
      pairs.map ZipPair.BaseName = [str "package", str "release"] :=
  (findZipPairs_spec.1 [str "dir1/package_v1.zip", str "dir1/release_final.zip"]
    [str "dir2/package_v2.zip", str "dir2/release_beta.zip", str "dir2/unmatched.zip"]).elim
    fun pairs hp => ⟨pairs, hp.1, hp.2.1.trans (by decide), by
      have h := hp.1
      rw [findZipPairs_eq] at h
      cases h
      decide⟩

/-! ## Read errors -/

/-- C17: `readZipContents` fails when the archive cannot be opened, and fails
with the first non-directory entry (in archive order) that cannot be opened or
read; when the archive opens and every such entry can be read it returns a
collection with a key for every non-directory entry. `compareZipFiles` fails
with the first archive's error when the first read fails, with the second
archive's error when only the second read fails, and otherwise returns the
comparison of the two complete collections; so it fails exactly when one of
the two reads fails, and an error never comes with a result. -/
theorem compareZipFiles_errors (sha : GoString → GoString) (o1 o2 : RangeOrder) :
    readZipContents sha none = .error .openZip ∧
      (∀ reader, Readable reader →
        ∃ files, readZipContents sha (some reader) = .ok files ∧
          ∀ g ∈ fileEntries reader, entryKey g ∈ mapKeys files) ∧
      (∀ pre f post, Readable pre → f.isDir = false → f.Data = .openFails →
        readZipContents sha (some (pre ++ f :: post)) = .error (.openFile f.Name)) ∧
      (∀ pre f post, Readable pre → f.isDir = false → f.Data = .readFails →
        readZipContents sha (some (pre ++ f :: post)) = .error (.readFile f.Name)) ∧
      (∀ zip1 zip2 e, readZipContents sha zip1 = .error e →
        compareZipFiles sha o1 o2 zip1 zip2 = .error (.firstZip e)) ∧
      (∀ zip1 zip2 files1 e, readZipContents sha zip1 = .ok files1 →
        readZipContents sha zip2 = .error e →
        compareZipFiles sha o1 o2 zip1 zip2 = .error (.secondZip e)) ∧
      (∀ zip1 zip2 files1 files2, readZipContents sha zip1 = .ok files1 →
        readZipContents sha zip2 = .ok files2 →
        compareZipFiles sha o1 o2 zip1 zip2 = .ok (compareFileMaps o1 o2 files1 files2)) ∧
      (∀ zip1 zip2, (∃ e, compareZipFiles sha o1 o2 zip1 zip2 = .error e) ↔
        ((∃ e, readZipContents sha zip1 = .error e) ∨
          (∃ e, readZipContents sha zip2 = .error e))) := by
  refine ⟨rfl, ?_, ?_, ?_, ?_, ?_, ?_, ?_⟩
  · intro reader hr
    obtain ⟨files, hfiles⟩ := readZipLoop_readable sha reader [] hr
    have hread : readZipContents sha (some reader) = .ok files := hfiles
    exact ⟨files, hread, fun g hg => mem_mapKeys_of_entry (readZipContents_invariant hread) hg⟩
  · intro pre f post hr hdir hdata
    exact readZipLoop_first_failure sha f post _
      (fun files => readZipStep_openFails sha files hdir hdata) pre [] hr
  · intro pre f post hr hdir hdata
    exact readZipLoop_first_failure sha f post _
      (fun files => readZipStep_readFails sha files hdir hdata) pre [] hr
  · intro zip1 zip2 e h1
    simp [compareZipFiles, h1]
  · intro zip1 zip2 files1 e h1 h2
    simp [compareZipFiles, h1, h2]
  · intro zip1 zip2 files1 files2 h1 h2
    exact compareZipFiles_ok o1 o2 h1 h2
  · intro zip1 zip2
    unfold compareZipFiles
    cases h1 : readZipContents sha zip1 with
    | error e1 => simp
    | ok files1 =>
      cases h2 : readZipContents sha zip2 with
      | error e2 => simp
      | ok files2 => simp

/-- Witness of C17 at an archive whose second entry cannot be read, compared
with a readable archive and with itself. -/
theorem compareZipFiles_errors_witness :
    readZipContents toyDigest
        (some ([⟨str "a.txt", false, .content (str "x")⟩] ++
          ⟨str "b.txt", false, .readFails⟩ :: [⟨str "c.txt", false, .openFails⟩])) =
        .error (.readFile (str "b.txt")) ∧
      compareZipFiles toyDigest insertionOrder insertionOrder
          (zipOf [("a.txt", "x")])
          (some [⟨str "a.txt", false, .content (str "x")⟩, ⟨str "b.txt", false, .readFails⟩,
            ⟨str "c.txt", false, .openFails⟩]) =
        .error (.secondZip (.readFile (str "b.txt"))) ∧
      compareZipFiles toyDigest insertionOrder insertionOrder none
          (some [⟨str "a.txt", false, .content (str "x")⟩, ⟨str "b.txt", false, .readFails⟩]) =
        .error (.firstZip .openZip) :=
  ⟨(compareZipFiles_errors toyDigest insertionOrder insertionOrder).2.2.2.1
      [⟨str "a.txt", false, .content (str "x")⟩] ⟨str "b.txt", false, .readFails⟩
      [⟨str "c.txt", false, .openFails⟩]
      (by
        intro f hf _
        simp only [List.mem_singleton] at hf
        subst hf
        exact ⟨_, rfl⟩)
      (by decide) rfl,
    (compareZipFiles_errors toyDigest insertionOrder insertionOrder).2.2.2.2.2.1 _ _
      [(str "a.txt", entryInfo toyDigest ⟨str "a.txt", false, .content (str "x")⟩)] _ rfl rfl,
    (compareZipFiles_errors toyDigest insertionOrder insertionOrder).2.2.2.2.1 _ _ _ rfl⟩

/-! ## Collisions of normalized names -/

/-- C18 (the code at the failing input): an archive holds `file_abc123.txt`
(its file name carries a commit code) and `docs/archive/file.txt` (its file
name is its normalized base name); in either archive order the entry kept
under `file.txt` is `file_abc123.txt`, the one with the commit code, because
its full path is the shorter. -/
theorem readZipContents_keeps_coded_entry :
    filepathBase (str "file_abc123.txt") ≠ extractBaseName (filepathBase (str "file_abc123.txt")) ∧
      filepathBase (str "docs/archive/file.txt") =
        extractBaseName (filepathBase (str "docs/archive/file.txt")) ∧
      readZipContents toyDigest
          (zipOf [("file_abc123.txt", "coded"), ("docs/archive/file.txt", "plain")]) =
        .ok [(str "file.txt", entryInfo toyDigest
          ⟨str "file_abc123.txt", false, .content (str "coded")⟩)] ∧
      readZipContents toyDigest
          (zipOf [("docs/archive/file.txt", "plain"), ("file_abc123.txt", "coded")]) =
        .ok [(str "file.txt", entryInfo toyDigest
          ⟨str "file_abc123.txt", false, .content (str "coded")⟩)] :=
  ⟨by decide, by decide, rfl, rfl⟩

/-- C19 (as stated, refuted): the map `a_abc123.txt` to `x`, `a_def456.txt` to
`y` written in the two possible orders gives two archives that compare as
different under `a.txt`: each archive keeps the first of its two entries,
whose raw names have the same length. -/
theorem compareZipFiles_reordered_counterexample :
    compareZipFiles toyDigest insertionOrder insertionOrder
        (zipOf [("a_abc123.txt", "x"), ("a_def456.txt", "y")])
        (zipOf [("a_def456.txt", "y"), ("a_abc123.txt", "x")]) =
      .ok { OnlyInFirst := [], OnlyInSecond := [], Different := [str "a.txt"], Identical := [],
            DiffDetails := [
              { FileName := str "a.txt",
                Diff := str "--- a.txt (ZIP 1)\n+++ a.txt (ZIP 2)\n-x\n+y\n",
                IsBinary := false }] } :=
  rfl

/-- C19 (amended): two readable archives with the same entries in any two
orders compare as fully identical, with one name in Identical per distinct
normalized base name, provided that the entries of minimal raw-name length
among those sharing a normalized base name all have the same content. -/
theorem compareZipFiles_reordered (sha : GoString → GoString) (o1 o2 : RangeOrder)
    (reader1 reader2 : List ZipFile) (hperm : reader2.Perm reader1) (hr : Readable reader1)
    (htie : ∀ f g, IsShortest reader1 f → IsShortest reader1 g → entryKey f = entryKey g →
      entryContent f = entryContent g) :
    ∃ r, compareZipFiles sha o1 o2 (some reader1) (some reader2) = .ok r ∧
      r.Different = [] ∧ r.OnlyInFirst = [] ∧ r.OnlyInSecond = [] ∧ r.Identical.Nodup ∧
      ∀ k, k ∈ r.Identical ↔ ∃ f ∈ fileEntries reader1, entryKey f = k := by
  have hr2 : Readable reader2 := fun f hf hd => hr f (hperm.mem_iff.1 hf) hd
  obtain ⟨files1, h1⟩ := readZipLoop_readable sha reader1 [] hr
  obtain ⟨files2, h2⟩ := readZipLoop_readable sha reader2 [] hr2
  have h1 : readZipContents sha (some reader1) = .ok files1 := h1
  have h2 : readZipContents sha (some reader2) = .ok files2 := h2
  have hn1 := readZipContents_nodup h1
  have hn2 := readZipContents_nodup h2
  have hinv1 := readZipContents_invariant h1
  have hinv2 := readZipContents_invariant h2
  have hsame : ∀ f, f ∈ fileEntries reader1 ↔ f ∈ fileEntries reader2 := by
    intro f
    rw [mem_fileEntries_iff, mem_fileEntries_iff, hperm.mem_iff]
  have htie2 : ∀ f g, IsShortest reader2 f → IsShortest reader2 g → entryKey f = entryKey g →
      entryContent f = entryContent g := by
    intro f g hf hg hfg
    exact htie f g ⟨(hsame f).2 hf.1, fun x hx hxk => hf.2 x ((hsame x).1 hx) hxk⟩
      ⟨(hsame g).2 hg.1, fun x hx hxk => hg.2 x ((hsame x).1 hx) hxk⟩ hfg
  have p12 : ∀ (o : RangeOrder) (kv : GoString × FileInfo), kv ∈ o.visit files1 →
      ∃ e2, mapGet files2 kv.1 = some e2 ∧ kv.2.Hash = e2.Hash ∧ kv.2.Size = e2.Size := by
    intro o kv hkv
    exact partner_of_same_entries hinv1 hinv2 hsame htie
      (mapGet_eq_some_of_mem hn1 ((mem_visit_iff o files1 kv).1 hkv))
  have p21 : ∀ (o : RangeOrder) (kv : GoString × FileInfo), kv ∈ o.visit files2 →
      ∃ e1, mapGet files1 kv.1 = some e1 ∧ kv.2.Hash = e1.Hash ∧ kv.2.Size = e1.Size := by
    intro o kv hkv
    exact partner_of_same_entries hinv2 hinv1 (fun f => (hsame f).symm) htie2
      (mapGet_eq_some_of_mem hn2 ((mem_visit_iff o files2 kv).1 hkv))
  refine ⟨_, compareZipFiles_ok o1 o2 h1 h2, ?_⟩
  have hD : (o1.visit files1).filter (isDifferent files2) = [] := by
    rw [List.filter_eq_nil_iff]
    intro kv hkv
    obtain ⟨e, hg, hh, hs⟩ := p12 o1 kv hkv
    simp [isDifferent, hg, hh, hs]
  have hF : (o1.visit files1).filter (isAbsent files2) = [] := by
    rw [List.filter_eq_nil_iff]
    intro kv hkv
    obtain ⟨e, hg, _⟩ := p12 o1 kv hkv
    simp [isAbsent, hg]
  have hS : (o2.visit files2).filter (isAbsent files1) = [] := by
    rw [List.filter_eq_nil_iff]
    intro kv hkv
    obtain ⟨e, hg, _⟩ := p21 o2 kv hkv
    simp [isAbsent, hg]
  have hI : (o1.visit files1).filter (isIdentical files2) = o1.visit files1 := by
    rw [List.filter_eq_self]
    intro kv hkv
    obtain ⟨e, hg, hh, hs⟩ := p12 o1 kv hkv
    simp [isIdentical, hg, hh, hs]
  rw [compareFileMaps_eq]
  simp only [hD, hF, hS, hI, List.map_nil, true_and]
  refine ⟨nodup_keys_visit o1 hn1, ?_⟩
  intro k
  have hkeys : k ∈ (o1.visit files1).map Prod.fst ↔ k ∈ mapKeys files1 :=
    ((o1.perm files1).map Prod.fst).mem_iff
  rw [hkeys]
  constructor
  · intro hk
    cases hget : mapGet files1 k with
    | none => exact absurd hk ((mapGet_eq_none_iff files1 k).1 hget)
    | some e =>
      obtain ⟨f, hs, hfk, _⟩ := isShortest_of_keptUnder ((hinv1 k).2 e hget)
      exact ⟨f, hs.1, hfk⟩
  · rintro ⟨f, hf, hfk⟩
    rw [← hfk]
    exact mem_mapKeys_of_entry hinv1 hf

/-- Witness of C19 at an archive with `a_abc123.txt` and `a_def456.txt`, both
with content `x`, and `b.txt`, compared with the same entries in reverse
order. -/
theorem compareZipFiles_reordered_witness :
    ∃ r, compareZipFiles toyDigest insertionOrder reverseOrder (some tiedZip)
        (some tiedZip.reverse) = .ok r ∧
      r.Different = [] ∧ r.OnlyInFirst = [] ∧ r.OnlyInSecond = [] ∧ r.Identical.Nodup ∧
      ∀ k, k ∈ r.Identical ↔ ∃ f ∈ fileEntries tiedZip, entryKey f = k :=
  compareZipFiles_reordered toyDigest insertionOrder reverseOrder tiedZip tiedZip.reverse
    (List.reverse_perm tiedZip)
    (by
      intro f hf _
      simp only [tiedZip, List.mem_cons, List.mem_singleton, List.not_mem_nil, or_false] at hf
      rcases hf with rfl | rfl | rfl <;> exact ⟨_, rfl⟩)
    (by
      intro f g hf hg hk
      have hfe : fileEntries tiedZip = tiedZip := by decide
      have hf1 := hf.1
      have hg1 := hg.1
      rw [hfe] at hf1 hg1
      simp only [tiedZip, List.mem_cons, List.mem_singleton, List.not_mem_nil, or_false]
        at hf1 hg1
      rcases hf1 with rfl | rfl | rfl <;> rcases hg1 with rfl | rfl | rfl <;>
        first
        | rfl
        | (exfalso; revert hk; decide))

/-! ## Lemmas on the empty diff body -/

theorem str_minus : str "-" = [45] := by decide

theorem str_plus : str "+" = [43] := by decide

theorem str_lf : str "\n" = [10] := by decide

theorem getD_mem_of_lt {lines : List GoString} {i : Nat} (h : i < lines.length) :
    lines.getD i [] ∈ lines := by
  rw [List.getD_eq_getElem lines [] h]
  exact List.getElem_mem h

theorem diffLine_eq_nil_iff (lines1 lines2 : List GoString) (i : Nat)
    (hi : i < max lines1.length lines2.length) :
    diffLine lines1 lines2 i = [] ↔ lines1.getD i [] = lines2.getD i [] := by
  unfold diffLine
  constructor
  · intro h
    by_contra hne
    rw [if_neg hne] at h
    obtain ⟨ha, hb⟩ := List.append_eq_nil.1 h
    by_cases h1 : i < lines1.length
    · rw [if_pos h1, str_minus] at ha
      simp at ha
    · have h2 : i < lines2.length := by
        rcases Nat.lt_or_ge i lines2.length with h2 | h2
        · exact h2
        · exact absurd hi (by simp only [not_lt]; exact max_le (Nat.le_of_not_lt h1) h2)
      rw [if_pos h2, str_plus] at hb
      simp at hb
  · intro h
    rw [if_pos h]

theorem flatten_map_eq_nil_iff (f : Nat → GoString) (l : List Nat) :
    (l.map f).flatten = [] ↔ ∀ i ∈ l, f i = [] := by
  induction l with
  | nil => simp
  | cons x t ih => simp [ih]

theorem diffBody_eq_nil_iff (lines1 lines2 : List GoString) :
    diffBody lines1 lines2 = [] ↔
      ∀ i, i < max lines1.length lines2.length → lines1.getD i [] = lines2.getD i [] := by
  unfold diffBody
  rw [flatten_map_eq_nil_iff]
  constructor
  · intro h i hi
    exact (diffLine_eq_nil_iff lines1 lines2 i hi).1 (h i (List.mem_range.2 hi))
  · intro h i hi
    exact (diffLine_eq_nil_iff lines1 lines2 i (List.mem_range.1 hi)).2
      (h i (List.mem_range.1 hi))

theorem padLines_length {n : Nat} {lines : List GoString} (h : lines.length ≤ n) :
    (padLines n lines).length = n := by
  simp [padLines]
  omega

theorem padLines_getD (n : Nat) (lines : List GoString) (i : Nat) :
    (padLines n lines).getD i [] = lines.getD i [] := by
  unfold padLines
  by_cases h : i < lines.length
  · rw [List.getD_eq_getElem _ [] (by simp; omega), List.getD_eq_getElem _ [] h,
      List.getElem_append_left h]
  · rw [getD_of_length_le lines i h]
    rw [List.getD_eq_getElem?_getD, List.getElem?_append_right (by omega)]
    by_cases h2 : i - lines.length < n - lines.length
    · rw [List.getElem?_replicate_of_lt h2]
      rfl
    · rw [List.getElem?_eq_none (by simp; omega)]
      rfl

theorem padLines_eq_iff {n : Nat} {lines1 lines2 : List GoString} (h1 : lines1.length ≤ n)
    (h2 : lines2.length ≤ n) :
    padLines n lines1 = padLines n lines2 ↔
      ∀ i, i < n → lines1.getD i [] = lines2.getD i [] := by
  constructor
  · intro h i _
    rw [← padLines_getD n lines1 i, ← padLines_getD n lines2 i, h]
  · intro h
    apply List.ext_getElem
    · rw [padLines_length h1, padLines_length h2]
    · intro i hi1 hi2
      have hin : i < n := by
        rw [padLines_length h1] at hi1
        exact hi1
      have e1 := List.getD_eq_getElem (padLines n lines1) [] hi1
      have e2 := List.getD_eq_getElem (padLines n lines2) [] hi2
      rw [← e1, ← e2, padLines_getD, padLines_getD]
      exact h i hin

theorem flatten_map_first (f : Nat → GoString) :
    ∀ l : List Nat, (l.map f).flatten ≠ [] →
      ∃ i ∈ l, f i ≠ [] ∧ ∃ post, (l.map f).flatten = f i ++ post := by
  intro l
  induction l with
  | nil => simp
  | cons x t ih =>
    intro hne
    by_cases hx : f x = []
    · have ht : (t.map f).flatten ≠ [] := by
        simpa [hx] using hne
      obtain ⟨i, hi, hfi, post, hpost⟩ := ih ht
      exact ⟨i, List.mem_cons_of_mem _ hi, hfi, post, by simp [hx, hpost]⟩
    · exact ⟨x, by simp, hx, (t.map f).flatten, by simp⟩

/-- A non-empty contribution starts with a removed line of the first side or
an added line of the second side. -/
theorem diffLine_marker {lines1 lines2 : List GoString} {i : Nat}
    (h : diffLine lines1 lines2 i ≠ []) :
    ∃ m l post, diffLine lines1 lines2 i = m :: l ++ 10 :: post ∧
      ((m = 45 ∧ l ∈ lines1) ∨ (m = 43 ∧ l ∈ lines2)) := by
  unfold diffLine at h ⊢
  by_cases heq : lines1.getD i [] = lines2.getD i []
  · rw [if_pos heq] at h
    exact absurd rfl h
  · rw [if_neg heq] at h ⊢
    by_cases h1 : i < lines1.length
    · refine ⟨45, lines1.getD i [],
        (if i < lines2.length then str "+" ++ lines2.getD i [] ++ str "\n" else []), ?_,
        Or.inl ⟨rfl, getD_mem_of_lt h1⟩⟩
      rw [if_pos h1, str_minus, str_lf]
      simp only [List.cons_append, List.nil_append, List.append_assoc]
    · by_cases h2 : i < lines2.length
      · refine ⟨43, lines2.getD i [], [], ?_, Or.inr ⟨rfl, getD_mem_of_lt h2⟩⟩
        rw [if_neg h1, if_pos h2, str_plus, str_lf]
        simp
      · rw [if_neg h1, if_neg h2] at h
        exact absurd rfl h

/-! ## Lemmas on swapping the sides -/

theorem diffDetails_fileNames (o1 o2 : RangeOrder) (files1 files2 : FileMap) :
    (compareFileMaps o1 o2 files1 files2).DiffDetails.map DiffInfo.FileName =
      (compareFileMaps o1 o2 files1 files2).Different := by
  rw [compareFileMaps_eq]
  simp only [List.map_map]
  apply List.map_congr_left
  intro kv _
  simp only [Function.comp, diffRecord]
  cases mapGet files2 kv.1 <;> rfl

theorem mem_diffDetails {o1 o2 : RangeOrder} {files1 files2 : FileMap} {d : DiffInfo}
    (hd : d ∈ (compareFileMaps o1 o2 files1 files2).DiffDetails) :
    ∃ e1 e2, (d.FileName, e1) ∈ files1 ∧ (d.FileName, e2) ∈ files2 ∧
      d.IsBinary = (e1.IsBinary || e2.IsBinary) := by
  rw [compareFileMaps_eq] at hd
  simp only [List.mem_map, List.mem_filter, mem_visit_iff] at hd
  obtain ⟨⟨k, e1⟩, ⟨hmem, hdiff⟩, hrec⟩ := hd
  simp only [isDifferent] at hdiff
  cases hget : mapGet files2 k with
  | none => simp [hget] at hdiff
  | some e2 =>
    simp only [diffRecord, hget] at hrec
    subst hrec
    exact ⟨e1, e2, hmem, mem_of_mapGet_eq_some hget, rfl⟩

theorem entry_unique {m : FileMap} (hnd : (mapKeys m).Nodup) {k : GoString} {e1 e2 : FileInfo}
    (h1 : (k, e1) ∈ m) (h2 : (k, e2) ∈ m) : e1 = e2 := by
  have := mapGet_eq_some_of_mem hnd h1
  rw [mapGet_eq_some_of_mem hnd h2] at this
  exact (Option.some.inj this).symm

theorem nodup_Identical (o1 o2 : RangeOrder) {files1 : FileMap} (files2 : FileMap)
    (h : (mapKeys files1).Nodup) : (compareFileMaps o1 o2 files1 files2).Identical.Nodup := by
  rw [compareFileMaps_eq]
  exact nodup_filter_keys o1 h _

theorem nodup_Different (o1 o2 : RangeOrder) {files1 : FileMap} (files2 : FileMap)
    (h : (mapKeys files1).Nodup) : (compareFileMaps o1 o2 files1 files2).Different.Nodup := by
  rw [compareFileMaps_eq]
  exact nodup_filter_keys o1 h _

theorem onlyInFirst_swap_perm (o1 o2 o3 o4 : RangeOrder) (a b : FileMap) :
    (compareFileMaps o3 o4 b a).OnlyInFirst.Perm (compareFileMaps o1 o2 a b).OnlyInSecond := by
  rw [compareFileMaps_eq, compareFileMaps_eq]
  exact (((o3.perm b).trans (o2.perm b).symm).filter _).map _

theorem onlyInSecond_swap_perm (o1 o2 o3 o4 : RangeOrder) (a b : FileMap) :
    (compareFileMaps o3 o4 b a).OnlyInSecond.Perm (compareFileMaps o1 o2 a b).OnlyInFirst := by
  rw [compareFileMaps_eq, compareFileMaps_eq]
  exact (((o4.perm a).trans (o1.perm a).symm).filter _).map _

/-! ## The entry collection -/

/-- C21: for an archive whose non-directory entries are all readable,
`readZipContents` returns a collection whose keys are distinct and are exactly
the values `extractBaseName (filepath.Base name)` over the non-directory
entries, and the entry stored under a key `k` comes from a non-directory entry
with that key and has BaseName `k`, Size the length of that entry's bytes,
IsBinary the classification of the bytes, and Content the bytes when they are
text and empty when they are binary. -/
theorem readZipContents_collection (sha : GoString → GoString) (reader : List ZipFile)
    (hr : Readable reader) :
    ∃ files, readZipContents sha (some reader) = .ok files ∧ (mapKeys files).Nodup ∧
      (∀ k, k ∈ mapKeys files ↔
        ∃ f ∈ reader, f.isDir = false ∧ extractBaseName (filepathBase f.Name) = k) ∧
      (∀ k e, (k, e) ∈ files →
        ∃ f ∈ reader, ∃ c, f.isDir = false ∧ f.Data = .content c ∧
          extractBaseName (filepathBase f.Name) = k ∧ e.Name = f.Name ∧ e.BaseName = k ∧
          e.Size = c.length ∧ e.Hash = sha c ∧ e.IsBinary = isBinaryContent c ∧
          e.Content = (if isBinaryContent c = true then [] else c)) := by
  obtain ⟨files, hloop⟩ := readZipLoop_readable sha reader [] hr
  have hread : readZipContents sha (some reader) = .ok files := hloop
  have hnd := readZipContents_nodup hread
  have hinv := readZipContents_invariant hread
  refine ⟨files, hread, hnd, ?_, ?_⟩
  · intro k
    constructor
    · intro hk
      cases hget : mapGet files k with
      | none => exact absurd hk ((mapGet_eq_none_iff files k).1 hget)
      | some e =>
        obtain ⟨f, hs, hfk, _⟩ := isShortest_of_keptUnder ((hinv k).2 e hget)
        obtain ⟨hfr, hfd⟩ := (mem_fileEntries_iff reader f).1 hs.1
        exact ⟨f, hfr, hfd, hfk⟩
    · rintro ⟨f, hfr, hfd, hfk⟩
      rw [← hfk]
      exact mem_mapKeys_of_entry hinv ((mem_fileEntries_iff reader f).2 ⟨hfr, hfd⟩)
  · intro k e he
    obtain ⟨pre, f, post, hsplit, hfk, ⟨c, hc⟩, hinfo, _, _⟩ :=
      (hinv k).2 e (mapGet_eq_some_of_mem hnd he)
    have hf : f ∈ fileEntries reader := by
      rw [hsplit]
      simp
    obtain ⟨hfr, hfd⟩ := (mem_fileEntries_iff reader f).1 hf
    refine ⟨f, hfr, c, hfd, hc, hfk, ?_, ?_, ?_, ?_, ?_, ?_⟩
    · rw [hinfo]
      rfl
    · rw [hinfo]
      exact hfk
    · rw [hinfo]
      simp [entryInfo, entryContent, hc]
    · rw [hinfo]
      simp [entryInfo, entryContent, hc]
    · rw [hinfo]
      simp [entryInfo, entryContent, hc]
    · rw [hinfo]
      cases hb : isBinaryContent c <;> simp [entryInfo, entryContent, hc, hb]

/-- Witness of C21 at an archive with the directory entry `docs/`, the files
`docs/file_abc123.txt` and `src/file.txt`, which share the key `file.txt`, and
the binary file `logo.png`. -/
theorem readZipContents_collection_witness :
    readZipContents toyDigest (some mixedZip) =
        .ok [(str "file.txt", ⟨str "src/file.txt", str "file.txt", 3, str "two", str "two",
            false⟩),
          (str "logo.png", ⟨str "logo.png", str "logo.png", 4, [137, 80, 0, 71], [], true⟩)] ∧
      ∃ files, readZipContents toyDigest (some mixedZip) = .ok files ∧ (mapKeys files).Nodup ∧
        (∀ k, k ∈ mapKeys files ↔
          ∃ f ∈ mixedZip, f.isDir = false ∧ extractBaseName (filepathBase f.Name) = k) ∧
        (∀ k e, (k, e) ∈ files →
          ∃ f ∈ mixedZip, ∃ c, f.isDir = false ∧ f.Data = .content c ∧
            extractBaseName (filepathBase f.Name) = k ∧ e.Name = f.Name ∧ e.BaseName = k ∧
            e.Size = c.length ∧ e.Hash = toyDigest c ∧ e.IsBinary = isBinaryContent c ∧
            e.Content = (if isBinaryContent c = true then [] else c)) :=
  ⟨rfl, readZipContents_collection toyDigest mixedZip (by
    intro f hf _
    simp only [mixedZip, List.mem_cons, List.mem_singleton, List.not_mem_nil, or_false] at hf
    rcases hf with rfl | rfl | rfl | rfl <;> exact ⟨_, rfl⟩)⟩

/-! ## Diffs without a removed or added line -/

/-- C22: for contents that differ, the output of `generateDiff` is exactly the
two-line header exactly when the two line sequences are equal once both are
padded with empty lines to the larger line count (as for `a` against `a\n`);
in every other case the body starts with a line that is `-` followed by a line
of the first content or `+` followed by a line of the second content. -/
theorem generateDiff_header_only :
    (∀ content1 content2 fileName : GoString, content1 ≠ content2 →
        (generateDiff content1 content2 fileName = diffHeader fileName ↔
            padLines (max (splitLines content1).length (splitLines content2).length)
                (splitLines content1) =
              padLines (max (splitLines content1).length (splitLines content2).length)
                (splitLines content2)) ∧
          (generateDiff content1 content2 fileName ≠ diffHeader fileName →
            ∃ m l post, generateDiff content1 content2 fileName =
                diffHeader fileName ++ (m :: l ++ 10 :: post) ∧ 10 ∉ l ∧
              ((m = 45 ∧ l ∈ splitLines content1) ∨ (m = 43 ∧ l ∈ splitLines content2)))) ∧
      generateDiff (str "a") (str "a\n") (str "f") = str "--- f (ZIP 1)\n+++ f (ZIP 2)\n" ∧
      padLines 2 (splitLines (str "a")) = padLines 2 (splitLines (str "a\n")) := by
  refine ⟨?_, by decide, by decide⟩
  intro content1 content2 fileName hne
  have hgen := generateDiff_of_ne hne fileName
  have hbody : generateDiff content1 content2 fileName = diffHeader fileName ↔
      diffBody (splitLines content1) (splitLines content2) = [] := by
    rw [hgen]
    constructor
    · intro h
      have hlen := congrArg List.length h
      simp only [List.length_append] at hlen
      exact List.eq_nil_of_length_eq_zero (by omega)
    · intro h
      rw [h, List.append_nil]
  constructor
  · rw [hbody, diffBody_eq_nil_iff,
      padLines_eq_iff (le_max_left _ _) (le_max_right _ _)]
  · intro hnot
    have hne2 : diffBody (splitLines content1) (splitLines content2) ≠ [] :=
      fun h => hnot (hbody.2 h)
    obtain ⟨i, _, hfi, post, hpost⟩ := flatten_map_first _ _ hne2
    obtain ⟨m, l, post2, hline, hm⟩ := diffLine_marker hfi
    refine ⟨m, l, post2 ++ post, ?_, ?_, hm⟩
    · rw [hgen]
      unfold diffBody
      rw [hpost, hline]
      simp
    · rcases hm with ⟨_, hl⟩ | ⟨_, hl⟩
      · exact (splitLines_spec content1).2 l hl
      · exact (splitLines_spec content2).2 l hl

/-- Witness of C22 at `a\n\n` against `a` (header only) and at `a\nb` against
`a\nc` (the body starts with the removed line `b`). -/
theorem generateDiff_header_only_witness :
    generateDiff (str "a\n\n") (str "a") (str "f") = diffHeader (str "f") ∧
      ∃ m l post, generateDiff (str "a\nb") (str "a\nc") (str "f") =
          diffHeader (str "f") ++ (m :: l ++ 10 :: post) ∧ 10 ∉ l ∧
        ((m = 45 ∧ l ∈ splitLines (str "a\nb")) ∨ (m = 43 ∧ l ∈ splitLines (str "a\nc"))) :=
  ⟨((generateDiff_header_only.1 (str "a\n\n") (str "a") (str "f") (by decide)).1).2 (by decide),
    (generateDiff_header_only.1 (str "a\nb") (str "a\nc") (str "f") (by decide)).2 (by decide)⟩

/-! ## Swapping the sides -/

/-- C23: for two entry collections `a` and `b` (maps, whose keys are distinct)
and any iteration orders, comparing (`b`, `a`) gives the same Identical names
and the same Different names as comparing (`a`, `b`), up to order; its
OnlyInFirst is the OnlyInSecond of (`a`, `b`) and its OnlyInSecond the
OnlyInFirst of (`a`, `b`), up to order, and exactly so when each map is
visited in the same order in both comparisons; every diff record of one
direction has a record of the same name in the other direction, and records of
the same name have the same IsBinary flag; and these are the results of
`compareZipFiles` on two archives read into `a` and `b`, in the two orders of
the arguments. -/
theorem compareZipFiles_symmetric (o1 o2 o3 o4 : RangeOrder) (a b : FileMap)
    (ha : (mapKeys a).Nodup) (hb : (mapKeys b).Nodup) :
    (compareFileMaps o3 o4 b a).Identical.Perm (compareFileMaps o1 o2 a b).Identical ∧
      (compareFileMaps o3 o4 b a).Different.Perm (compareFileMaps o1 o2 a b).Different ∧
      (compareFileMaps o3 o4 b a).OnlyInFirst.Perm (compareFileMaps o1 o2 a b).OnlyInSecond ∧
      (compareFileMaps o3 o4 b a).OnlyInSecond.Perm (compareFileMaps o1 o2 a b).OnlyInFirst ∧
      (compareFileMaps o2 o1 b a).OnlyInFirst = (compareFileMaps o1 o2 a b).OnlyInSecond ∧
      (compareFileMaps o2 o1 b a).OnlyInSecond = (compareFileMaps o1 o2 a b).OnlyInFirst ∧
      (∀ d ∈ (compareFileMaps o1 o2 a b).DiffDetails,
        ∃ d2 ∈ (compareFileMaps o3 o4 b a).DiffDetails,
          d2.FileName = d.FileName ∧ d2.IsBinary = d.IsBinary) ∧
      (∀ d ∈ (compareFileMaps o1 o2 a b).DiffDetails,
        ∀ d2 ∈ (compareFileMaps o3 o4 b a).DiffDetails,
          d2.FileName = d.FileName → d2.IsBinary = d.IsBinary) ∧
      (∀ (sha : GoString → GoString) (zip1 zip2 : ZipArchive),
        readZipContents sha zip1 = .ok a → readZipContents sha zip2 = .ok b →
          compareZipFiles sha o1 o2 zip1 zip2 = .ok (compareFileMaps o1 o2 a b) ∧
            compareZipFiles sha o3 o4 zip2 zip1 = .ok (compareFileMaps o3 o4 b a)) := by
  have hI : ∀ k, k ∈ (compareFileMaps o3 o4 b a).Identical ↔
      k ∈ (compareFileMaps o1 o2 a b).Identical := by
    intro k
    rw [mem_Identical_iff o3 o4 ha, mem_Identical_iff o1 o2 hb]
    constructor
    · rintro ⟨e1, e2, h1, h2, hh, hs⟩
      exact ⟨e2, e1, h2, h1, hh.symm, hs.symm⟩
    · rintro ⟨e1, e2, h1, h2, hh, hs⟩
      exact ⟨e2, e1, h2, h1, hh.symm, hs.symm⟩
  have hD : ∀ k, k ∈ (compareFileMaps o3 o4 b a).Different ↔
      k ∈ (compareFileMaps o1 o2 a b).Different := by
    intro k
    rw [mem_Different_iff o3 o4 ha, mem_Different_iff o1 o2 hb]
    constructor
    · rintro ⟨e1, e2, h1, h2, hne⟩
      exact ⟨e2, e1, h2, h1, fun h => hne ⟨h.1.symm, h.2.symm⟩⟩
    · rintro ⟨e1, e2, h1, h2, hne⟩
      exact ⟨e2, e1, h2, h1, fun h => hne ⟨h.1.symm, h.2.symm⟩⟩
  have hflag : ∀ d ∈ (compareFileMaps o1 o2 a b).DiffDetails,
      ∀ d2 ∈ (compareFileMaps o3 o4 b a).DiffDetails,
        d2.FileName = d.FileName → d2.IsBinary = d.IsBinary := by
    intro d hd d2 hd2 hname
    obtain ⟨e1, e2, h1, h2, hbin⟩ := mem_diffDetails hd
    obtain ⟨x2, x1, g2, g1, hbin2⟩ := mem_diffDetails hd2
    rw [hname] at g1 g2
    have he1 := entry_unique ha h1 g1
    have he2 := entry_unique hb h2 g2
    rw [hbin, hbin2, ← he1, ← he2, Bool.or_comm]
  refine ⟨(List.perm_ext_iff_of_nodup (nodup_Identical o3 o4 a hb)
      (nodup_Identical o1 o2 b ha)).2 hI,
    (List.perm_ext_iff_of_nodup (nodup_Different o3 o4 a hb) (nodup_Different o1 o2 b ha)).2 hD,
    onlyInFirst_swap_perm o1 o2 o3 o4 a b, onlyInSecond_swap_perm o1 o2 o3 o4 a b, ?_, ?_, ?_,
    hflag, ?_⟩
  · rw [compareFileMaps_eq, compareFileMaps_eq]
  · rw [compareFileMaps_eq, compareFileMaps_eq]
  · intro d hd
    have hname : d.FileName ∈ (compareFileMaps o1 o2 a b).Different := by
      rw [← diffDetails_fileNames]
      exact List.mem_map_of_mem _ hd
    have hname2 : d.FileName ∈ (compareFileMaps o3 o4 b a).Different := (hD _).2 hname
    rw [← diffDetails_fileNames, List.mem_map] at hname2
    obtain ⟨d2, hd2, hn⟩ := hname2
    exact ⟨d2, hd2, hn, hflag d hd d2 hd2 hn⟩
  · intro sha zip1 zip2 h1 h2
    exact ⟨compareZipFiles_ok o1 o2 h1 h2, compareZipFiles_ok o3 o4 h2 h1⟩

/-- Witness of C23 at two collections that share `different.txt` and
`binary.exe` (binary on one side only) while `onlyinfirst.txt` is in the
first only. -/
theorem compareZipFiles_symmetric_witness :
    (compareFileMaps insertionOrder insertionOrder swapFilesA swapFilesB).Different =
        [str "different.txt", str "binary.exe"] ∧
      (compareFileMaps reverseOrder insertionOrder swapFilesB swapFilesA).Different =
        [str "different.txt", str "binary.exe"] ∧
      (compareFileMaps insertionOrder reverseOrder swapFilesB swapFilesA).Different =
        [str "binary.exe", str "different.txt"] ∧
      (compareFileMaps insertionOrder reverseOrder swapFilesB swapFilesA).Different.Perm
        (compareFileMaps insertionOrder insertionOrder swapFilesA swapFilesB).Different ∧
      (compareFileMaps insertionOrder reverseOrder swapFilesB swapFilesA).OnlyInSecond.Perm
        (compareFileMaps insertionOrder insertionOrder swapFilesA swapFilesB).OnlyInFirst ∧
      (∀ d ∈ (compareFileMaps insertionOrder insertionOrder swapFilesA swapFilesB).DiffDetails,
        ∃ d2 ∈ (compareFileMaps insertionOrder reverseOrder swapFilesB swapFilesA).DiffDetails,
          d2.FileName = d.FileName ∧ d2.IsBinary = d.IsBinary) :=
  have h := compareZipFiles_symmetric insertionOrder insertionOrder insertionOrder reverseOrder
    swapFilesA swapFilesB (by decide) (by decide)
  ⟨by decide, by decide, by decide, h.2.1, h.2.2.2.1, h.2.2.2.2.2.2.1⟩

end ZipCompare
